import Mathlib

/-!
Verification of the Cloud2FEM geometric reconstruction pipeline
(`Cloud2Polygons.py`, `Polygons2FEM.py`).

Shallow embedding conventions:
* numpy floating point numbers are modelled as rationals (`ℚ`);
* numpy 1-d arrays and python lists are modelled as `List`;
* python dictionaries are modelled as association lists with
  first-match lookup;
* a python expression that raises an uncaught exception is modelled by
  `Option`/`Except` with `none` / `.error` meaning "the call raised";
* the shapely geometry library is modelled by a structure of abstract
  operations (`GeomOps`), since the source only ever calls
  `Polygon`, `is_valid`, `simplify`, `symmetric_difference` and
  `contains` on its values.
-/

namespace Cloud2FEM

/-- Three dimensional point of the point cloud (a row of the `pcl` array). -/
structure P3 where
  x : ℚ
  y : ℚ
  z : ℚ
deriving DecidableEq, Repr

/-- Two dimensional point (a row of a slice restricted to columns x, y). -/
structure P2 where
  x : ℚ
  y : ℚ
deriving DecidableEq, Repr

/-- Python `int(c)` on a float: truncation toward zero. -/
def truncInt (q : ℚ) : ℤ := Int.sign q.num * (q.num.natAbs / q.den : ℕ)

/-- Model of `np.linspace(a, b, n)` (endpoint=True, the default):
`n` evenly spaced values from `a` to `b` inclusive.  numpy raises
`ValueError` for a negative sample count, modelled by `none`.
For `n = 1` numpy returns `[a]`; the formula below agrees because in `ℚ`
division by zero yields zero. -/
def linspace (a b : ℚ) (n : ℤ) : Option (List ℚ) :=
  if n < 0 then none
  else some ((List.range n.toNat).map fun i : ℕ => a + (i : ℚ) * (b - a) / ((n : ℚ) - 1))

/-- Length of `np.arange(a, b, step)`: `max 0 ⌈(b - a)/step⌉`. -/
def arangeLen (a b step : ℚ) : ℕ := (⌈(b - a) / step⌉).toNat

/-- Model of `np.arange(a, b, step)`.  A zero step raises
(`ZeroDivisionError` in numpy), modelled by `none`. -/
def arange (a b step : ℚ) : Option (List ℚ) :=
  if step = 0 then none
  else some ((List.range (arangeLen a b step)).map fun i : ℕ => a + (i : ℚ) * step)

/-- Model of `make_zcoords(a, b, c, d)` (Cloud2Polygons.py, lines 37-53).
`d = 1`: fixed number of slices, `np.linspace(float(a), float(b), int(c))`;
`d = 2`: fixed step height, `np.arange(float(a), float(b), float(c))`;
`d = 3`: the body is `pass`, so the final `return zcoords` raises
`UnboundLocalError`; any other `d` likewise.  Both modelled by `none`. -/
def make_zcoords (a b c : ℚ) (d : ℕ) : Option (List ℚ) :=
  if d = 1 then linspace a b (truncInt c)
  else if d = 2 then arange a b c
  else none

/-- Band membership test of `make_slices`:
`pcl[:, 2] >= (z - thick/2) and pcl[:, 2] <= (z + thick/2)`. -/
def inBand (z thick : ℚ) (p : P3) : Bool :=
  decide (z - thick / 2 ≤ p.z) && decide (p.z ≤ z + thick / 2)

/-- Model of `make_slices(zcoords, pcl, thick, npts)` (Cloud2Polygons.py,
lines 59-81).  Returns the dictionary `slices` (an association list
`z ↦ points of pcl in the band of z`) and the net point cloud `netpcl`
(the points selected by no band: `invmask` is the pointwise product of the
complements of the per-level masks). -/
def make_slices (zcoords : List ℚ) (pcl : List P3) (thick : ℚ) :
    List (ℚ × List P3) × List P3 :=
  (zcoords.map fun z => (z, pcl.filter (inBand z thick)),
   pcl.filter fun p => zcoords.all fun z => !(inBand z thick p))

/-! ### Centroid tracer (`find_centroids`, Cloud2Polygons.py lines 87-167)

The per-slice tolerance calibration (lines 106-125) draws a random
subsample of the slice and only determines the value of the working
radius `newtol`; every property below is proved for an arbitrary
`newtol`, so the randomness does not enter the embedding.  The slice is
projected to its x, y columns (`empsl = slices[z][:, [0, 1]]`). -/

/-- Squared Euclidean distance in the plane.  The source compares
`np.sqrt(dx² + dy²) <= newtol`; for a nonnegative tolerance this is
equivalent to `dx² + dy² ≤ newtol²`, and `np.argmin` of the square-root
distances picks the same index as `argmin` of the squared distances. -/
def distSq (p q : P2) : ℚ := (p.x - q.x) ^ 2 + (p.y - q.y) ^ 2

/-- Band test `dists <= newtol`, squared form. -/
def nearB (center p : P2) (tol : ℚ) : Bool := decide (distSq center p ≤ tol * tol)

/-- Mean of a point list, componentwise:
`[nearpts[:, 0].mean(), nearpts[:, 1].mean()]`. -/
def meanPt (l : List P2) : P2 :=
  ⟨(l.map P2.x).sum / l.length, (l.map P2.y).sum / l.length⟩

/-- Model of `np.argmin`: index of the first occurrence of the minimum. -/
def argminIdx : List ℚ → ℕ
  | [] => 0
  | [_] => 0
  | x :: y :: rest =>
    let j := argminIdx (y :: rest)
    if (y :: rest).getD j 0 < x then j + 1 else 0

/-- Chain-seeding loop of `find_centroids` (lines 133-148): pop the
first remaining point, gather its neighbours; with fewer than `tolpt`
neighbours, discard the point and re-seed (`continue`); when the slice
runs out, the `IndexError` is caught and the slice gets `None`.
Returns the first centroid and the remaining working set. -/
def seed (tol : ℚ) (tolpt : ℕ) : List P2 → Option (P2 × List P2)
  | [] => none
  | stpnt :: empsl =>
    let nearpts := empsl.filter fun q => nearB stpnt q tol
    if nearpts.length < tolpt then seed tol tolpt empsl
    else some (meanPt nearpts, empsl.filter fun q => !(nearB stpnt q tol))

/-- Chain-growth loop of `find_centroids` (lines 151-165).  Every
iteration starts with `np.argmin` over the working set, which raises
`ValueError` on an empty set (modelled by `.error ()`), removes the
point nearest to the last centroid, and either skips it (`continue`),
stops, or appends the mean of its neighbour group and removes the
group.  Each iteration removes at least one point, so the fuel
argument never runs out when it is at least the working-set size; the
unreachable fuel-out case is mapped to `.error ()` as well. -/
def grow (tol : ℚ) (tolpt : ℕ) :
    ℕ → List P2 → P2 → List P2 → Except Unit (List P2)
  | _, _ctrds, _last, [] => .error ()
  | 0, _ctrds, _last, _ :: _ => .error ()
  | fuel + 1, ctrds, last, p :: rest =>
    let empsl := p :: rest
    let k := argminIdx (empsl.map fun q => distSq q last)
    let nearest := empsl.getD k ⟨0, 0⟩
    let empsl1 := empsl.eraseIdx k
    let nearpts := empsl1.filter fun q => nearB nearest q tol
    if nearpts.length < tolpt ∧ 0 < empsl1.length then
      grow tol tolpt fuel ctrds last empsl1
    else if empsl1.length < 1 then .ok ctrds
    else
      let c := meanPt nearpts
      let empsl2 := empsl1.filter fun q => !(nearB nearest q tol)
      if empsl2.length < 1 then .ok (ctrds ++ [c])
      else grow tol tolpt fuel (ctrds ++ [c]) c empsl2

/-- Per-slice behaviour of `find_centroids` for a given working radius
`newtol`: the `tolsl` small-slice check (line 129), then seeding, then
growth.  `.ok none` models `ctrds[z] = None`, `.error ()` models an
uncaught exception escaping `find_centroids`. -/
def trace_slice (tol : ℚ) (tolpt tolsl : ℕ) (slicepts : List P2) :
    Except Unit (Option (List P2)) :=
  if slicepts.length < tolsl then .ok none
  else
    match seed tol tolpt slicepts with
    | none => .ok none
    | some (c0, rest) => (grow tol tolpt (rest.length + 1) [c0] c0 rest).map some

/-- Containment of one point list in another, as value sets. -/
def subsetOf (g l : List P2) : Prop := ∀ p ∈ g, p ∈ l

/-- Disjointness of two point lists, as value sets. -/
def valueDisjoint (g h : List P2) : Prop := ∀ p ∈ g, p ∉ h

/-! ### Polygon builder (`make_polygons`, Cloud2Polygons.py lines 233-310) -/

/-- Abstract interface to the shapely operations used by
`make_polygons`.  `mkPolygon` models `sg.Polygon(polyline)`, which
raises `ValueError` on degenerate input (modelled by `none`). -/
structure GeomOps (Pg : Type) where
  mkPolygon : List P2 → Option Pg
  is_valid : Pg → Bool
  simplify : Pg → ℚ → Pg
  symmetric_difference : Pg → Pg → Pg

/-- Mutable state threaded through `make_polygons`: the current value
of the `tolsimpl` variable (increased by the repair loop and never
reset across polylines or levels) and the current value of the python
variable `newpgon` (used when `sg.Polygon` raises and the stale value
survives into the repair loop). -/
structure MPState (Pg : Type) where
  tolsimpl : ℚ
  prev : Option Pg
deriving DecidableEq, Repr

/-- Repair loop of `make_polygons` (lines 270-288):

```
while True:
    if newpgon.is_valid: break
    elif tolsimpl >= minwthick / 2.5 and not newpgon.is_valid:
        isvalid = 0; invalidpolygons += [z]; ...; break
    else:
        tolsimpl += minwthick / 50
        newpgon.simplify(tolsimpl, preserve_topology=True)
```

Note that the result of `newpgon.simplify(...)` is **discarded** (the
statement has no effect in shapely), mirrored by the unused
`_discarded` binding: the polygon carried into the next iteration is
`newpgon` unchanged.  Returns `(tolsimpl', isvalid, newpgon')`; `none`
models the loop not terminating within `fuel` iterations (for
`minw > 0` the loop always terminates, since `tolsimpl` strictly
increases toward the `minw / 2.5` bound). -/
def repairGo {Pg : Type} (ops : GeomOps Pg) (minw : ℚ) :
    ℕ → ℚ → Pg → Option (ℚ × Bool × Pg)
  | 0, _, _ => none
  | fuel + 1, tolsimpl, newpgon =>
    if ops.is_valid newpgon then some (tolsimpl, true, newpgon)
    else if minw / (5 / 2) ≤ tolsimpl ∧ ¬(ops.is_valid newpgon = true) then
      some (tolsimpl, false, newpgon)
    else
      let tolsimpl' := tolsimpl + minw / 50
      let _discarded := ops.simplify newpgon tolsimpl'
      repairGo ops minw fuel tolsimpl' newpgon

/-- Handling of a single polyline in `make_polygons` (lines 264-293):
`sg.Polygon` conversion with its `try/except ValueError` (on failure
the loop runs on the stale `newpgon` from a previous iteration; if no
previous value exists the `while` raises `NameError`, modelled by
`none`), then the repair loop.  Returns the new state, the polygon
appended to `pgons` (when `isvalid == 1`), and whether the level was
flagged in `invalidpolygons`. -/
def processPolyline {Pg : Type} (ops : GeomOps Pg) (minw : ℚ) (fuel : ℕ)
    (st : MPState Pg) (polyline : List P2) :
    Option (MPState Pg × Option Pg × Bool) :=
  let pg0 : Option Pg :=
    match ops.mkPolygon polyline with
    | some p => some p
    | none => st.prev
  match pg0 with
  | none => none
  | some p =>
    match repairGo ops minw fuel st.tolsimpl p with
    | none => none
    | some (tol', valid, p') =>
      some (⟨tol', some p'⟩, if valid then some p' else none, !valid)

/-- The `for polyline in cleanpolys[z]` loop of `make_polygons`:
collects the list `pgons` of kept polygons of one level and counts how
many times `z` was appended to `invalidpolygons`. -/
def levelPgons {Pg : Type} (ops : GeomOps Pg) (minw : ℚ) (fuel : ℕ) :
    MPState Pg → List (List P2) → Option (MPState Pg × List Pg × ℕ)
  | st, [] => some (st, [], 0)
  | st, polyline :: rest =>
    match processPolyline ops minw fuel st polyline with
    | none => none
    | some (st', keptO, flagged) =>
      match levelPgons ops minw fuel st' rest with
      | none => none
      | some (st'', pgs, nflag) =>
        some (st'', (match keptO with | some p => p :: pgs | none => pgs),
          (if flagged then 1 else 0) + nflag)

/-- Boolean combination step of `make_polygons` (lines 296-309):

```
temp = pgons[0]                       # IndexError when pgons == [] (caught: no entry)
if len(pgons) >= 2:
    for j in range(len(pgons) - 1):
        temp = temp.symmetric_difference(pgons[j + 1])
    polygs[z] = temp
elif len(pgons) == 1:
    polygs[z] = temp
```
-/
def combineLoop {Pg : Type} (sym : Pg → Pg → Pg) (pgons : List Pg) : Option Pg :=
  match pgons with
  | [] => none
  | p0 :: _ =>
    if 2 ≤ pgons.length then
      some ((List.range (pgons.length - 1)).foldl
        (fun temp j => sym temp (pgons.getD (j + 1) p0)) p0)
    else some p0

/-- Processing of one level of `make_polygons`: the polyline loop
followed by the combination step.  Returns the new state, the
`polygs[z]` entry (if any), and the number of `invalidpolygons`
appends. -/
def processLevelP {Pg : Type} (ops : GeomOps Pg) (minw : ℚ) (fuel : ℕ)
    (st : MPState Pg) (z : ℚ) (polylines : List (List P2)) :
    Option (MPState Pg × Option (ℚ × Pg) × ℕ) :=
  match levelPgons ops minw fuel st polylines with
  | none => none
  | some (st', pgons, nflag) =>
    some (st', (combineLoop ops.symmetric_difference pgons).map (fun m => (z, m)),
      nflag)

/-- Python dictionary lookup, modelled on an association list. -/
def lookupD {α : Type _} (d : List (ℚ × α)) (k : ℚ) : Option α :=
  (d.find? fun e => e.1 == k).map (·.2)

/-- The level loop of `make_polygons` over the (already filtered)
`zcoords`, accumulating the `polygs` dictionary and the
`invalidpolygons` list. -/
def make_polygonsGo {Pg : Type} (ops : GeomOps Pg) (minw : ℚ) (fuel : ℕ)
    (cleanpolys : List (ℚ × List (List P2))) :
    MPState Pg → List ℚ → Option (List (ℚ × Pg) × List ℚ)
  | _, [] => some ([], [])
  | st, z :: zs =>
    match processLevelP ops minw fuel st z ((lookupD cleanpolys z).getD []) with
    | none => none
    | some (st', entry, nflag) =>
      match make_polygonsGo ops minw fuel cleanpolys st' zs with
      | none => none
      | some (pg, inv) =>
        some ((match entry with | some e => e :: pg | none => pg),
          List.replicate nflag z ++ inv)

/-- Model of `make_polygons(minwthick, zcoords, cleanpolys, tolsimpl)`
(Cloud2Polygons.py lines 233-310): levels with no `cleanpolys` entry
are removed first (lines 246-256), then each remaining level is
processed in order. -/
def make_polygons {Pg : Type} (ops : GeomOps Pg) (minw : ℚ) (fuel : ℕ)
    (zcoords : List ℚ) (cleanpolys : List (ℚ × List (List P2)))
    (tolsimpl : ℚ) : Option (List (ℚ × Pg) × List ℚ) :=
  let zcs := zcoords.filter fun z => (lookupD cleanpolys z).isSome
  make_polygonsGo ops minw fuel cleanpolys ⟨tolsimpl, none⟩ zcs

/-- Concrete `GeomOps` instance over `Bool` ("is the ring valid")
whose `simplify` would always return a valid ring: it exhibits that the
repair loop ignores `simplify` entirely. -/
def boolRepairOps : GeomOps Bool where
  mkPolygon := fun _ => some false
  is_valid := fun p => p
  simplify := fun _ _ => true
  symmetric_difference := fun a _ => a

/-- Concrete `GeomOps` instance over `ℕ` whose `symmetric_difference`
is the non-commutative, non-associative digit append `a*10 + b`, making
the left-fold order observable. -/
def natFoldOps : GeomOps ℕ where
  mkPolygon := fun l => some l.length
  is_valid := fun _ => true
  simplify := fun p _ => p
  symmetric_difference := fun a b => a * 10 + b

/-! ### Voxel mesher (`make_mesh`, Polygons2FEM.py lines 34-219)

A shapely MultiPolygon enters `make_mesh` only through
`polygs[z].contains(sg.Point(x, y))`, so it is modelled by its
containment test `ℚ → ℚ → Bool`. -/

/-- Row of the node table: `[nID, x, y, z]`. -/
structure MeshNode where
  nid : ℕ
  x : ℚ
  y : ℚ
  z : ℚ
deriving DecidableEq, Repr

/-- Mutable state of the node/connectivity generation loop of
`make_mesh` (lines 104-210).  `nodes` is the list of rows of the numpy
`nodelist` array that have been written so far: the array is
preallocated with NaN rows and grown on demand, rows `0..nodeID-2`
are exactly the written ones and the NaN filter of line 212 keeps them
in order, so the growing list is the faithful observable content. -/
structure MeshState where
  nodeID : ℕ
  elID : ℕ
  nodes : List MeshNode
  elconnect : List (List ℕ)
  ignore : List ℕ
  zignore : ℕ
deriving DecidableEq, Repr

/-- Element height for slice index `z` (lines 118-121): the gap to the
next level, or for the last slice the gap to the previous level.
For a single slice, python's `zcoords[z-1]` with `z = 0` is
`zcoords[-1]`, the last (= only) element, so the height degenerates
to `0`. -/
def elhAt (zcoords : List ℚ) (z : ℕ) : ℚ :=
  if z ≠ zcoords.length - 1 then zcoords.getD (z + 1) 0 - zcoords.getD z 0
  else
    zcoords.getD z 0 -
      (if z = 0 then zcoords.getD (zcoords.length - 1) 0
       else zcoords.getD (z - 1) 0)

/-- Corner coordinates of the brick element of grid cell `elem`
(lines 140-155), in the fixed numbering 0-7: the four bottom corners
counter-clockwise, then the four top corners. -/
def cornerCoord (xngrid yngrid : List ℚ) (crntz elh : ℚ) (elem : ℕ × ℕ)
    (node : ℕ) : ℚ × ℚ × ℚ :=
  if node = 0 then (xngrid.getD elem.1 0, yngrid.getD elem.2 0, crntz)
  else if node = 1 then (xngrid.getD (elem.1 + 1) 0, yngrid.getD elem.2 0, crntz)
  else if node = 2 then
    (xngrid.getD (elem.1 + 1) 0, yngrid.getD (elem.2 + 1) 0, crntz)
  else if node = 3 then (xngrid.getD elem.1 0, yngrid.getD (elem.2 + 1) 0, crntz)
  else if node = 4 then (xngrid.getD elem.1 0, yngrid.getD elem.2 0, crntz + elh)
  else if node = 5 then
    (xngrid.getD (elem.1 + 1) 0, yngrid.getD elem.2 0, crntz + elh)
  else if node = 6 then
    (xngrid.getD (elem.1 + 1) 0, yngrid.getD (elem.2 + 1) 0, crntz + elh)
  else (xngrid.getD elem.1 0, yngrid.getD (elem.2 + 1) 0, crntz + elh)

/-- Start of the lookback window (lines 162-169): for slice index
`z > 2` only nodes from row `ignore[z-2]` on are compared
(`nodelist[ignore[z-2]:nodeID]`), otherwise the whole written prefix
(`nodelist[:nodeID]`). -/
def windowStart (st : MeshState) (z : ℕ) : ℕ :=
  if 2 < z then st.ignore.getD (z - 2) 0 else 0

/-- Coordinate matches of a candidate corner against a node list
(lines 164-169): x and y compared first, then z. -/
def matchesIn (nodes : List MeshNode) (c : ℚ × ℚ × ℚ) : List MeshNode :=
  nodes.filter fun n => n.x == c.1 && n.y == c.2.1 && n.z == c.2.2

/-- Node handling for one corner coordinate `c` (lines 157-202).
For the first element (`elID == 1`) the node is always appended
(lines 188-202); otherwise `c` is looked up in the lookback window:
exactly one match (`len(nexists) == 1`) reuses the matched node's id,
any other match count allocates a fresh node id.  Returns the new
state and the id appended to `tempel`. -/
def addCorner (z : ℕ) (st : MeshState) (c : ℚ × ℚ × ℚ) : MeshState × ℕ :=
  if st.elID ≠ 1 then
    let win := st.nodes.drop (windowStart st z)
    let mat := matchesIn win c
    if mat.length = 1 then (st, (mat.headD ⟨0, 0, 0, 0⟩).nid)
    else
      ({ st with
          nodes := st.nodes ++ [⟨st.nodeID, c.1, c.2.1, c.2.2⟩],
          nodeID := st.nodeID + 1,
          zignore := st.zignore + 1 }, st.nodeID)
  else
    ({ st with
        nodes := st.nodes ++ [⟨st.nodeID, c.1, c.2.1, c.2.2⟩],
        nodeID := st.nodeID + 1,
        zignore := st.zignore + 1 }, st.nodeID)

/-- One step of the corner loop `for node in range(8)` of `make_mesh`:
process the corner and append the resulting node id to `tempel`. -/
def cornerStep (xngrid yngrid : List ℚ) (z : ℕ) (crntz elh : ℚ)
    (elem : ℕ × ℕ) (acc : MeshState × List ℕ) (node : ℕ) :
    MeshState × List ℕ :=
  let stp := addCorner z acc.1 (cornerCoord xngrid yngrid crntz elh elem node)
  (stp.1, acc.2 ++ [stp.2])

/-- Generation of one element (lines 126-206): the eight corners are
processed in order, the row `[elID, n1, …, n8]` is appended to the
connectivity, and `elID` is incremented.  (The source buffers rows in
`z_elconnect` and flushes once per level, which appends the same rows
in the same order.) -/
def addElement (xngrid yngrid : List ℚ) (z : ℕ) (crntz elh : ℚ)
    (st : MeshState) (elem : ℕ × ℕ) : MeshState :=
  let res := (List.range 8).foldl (cornerStep xngrid yngrid z crntz elh elem)
    (st, ([] : List ℕ))
  { res.1 with
      elconnect := res.1.elconnect ++ [st.elID :: res.2],
      elID := res.1.elID + 1 }

/-- Processing of one slice (lines 113-210): generate all its
elements, then append the running node counter `zignore` to `ignore`. -/
def processLevelM (xngrid yngrid : List ℚ) (zcoords : List ℚ) (z : ℕ)
    (cells : List (ℕ × ℕ)) (st : MeshState) : MeshState :=
  let crntz := zcoords.getD z 0
  let elh := elhAt zcoords z
  let st' := cells.foldl (addElement xngrid yngrid z crntz elh) st
  { st' with ignore := st'.ignore ++ [st'.zignore] }

/-- Rasterization of one level (lines 81-95): scan the element-centre
grid in x-major order, keeping the cells whose centre lies inside the
level's MultiPolygon. -/
def levelCells (mp : ℚ → ℚ → Bool) (xelgrid yelgrid : List ℚ) :
    List (ℕ × ℕ) :=
  (List.range xelgrid.length).flatMap fun x =>
    (List.range yelgrid.length).filterMap fun y =>
      if mp (xelgrid.getD x 0) (yelgrid.getD y 0) then some (x, y) else none

/-- Per-level element search of `make_mesh` (lines 78-95): a level
absent from `polygs` raises `KeyError` at `polygs[z].contains` (line
85), and a level producing no cells leaves `elemlist[z]` unset so that
`elemlist[z] = np.array(elemlist[z])` raises `KeyError` (line 95);
both uncaught errors are modelled by `none`. -/
def rasterize (polygs : List (ℚ × (ℚ → ℚ → Bool))) (xelgrid yelgrid : List ℚ) :
    List ℚ → Option (List (ℚ × List (ℕ × ℕ)))
  | [] => some []
  | z :: zs =>
    match lookupD polygs z with
    | none => none
    | some mp =>
      let cells := levelCells mp xelgrid yelgrid
      if cells.isEmpty then none
      else
        match rasterize polygs xelgrid yelgrid zs with
        | none => none
        | some rest => some ((z, cells) :: rest)

/-- Model of `make_mesh(xeldim, yeldim, xmin, ymin, xmax, ymax,
zcoords, polygs)` (Polygons2FEM.py lines 34-219).  The grids are the
numpy `arange` calls of lines 70-73 (`xelgrid = xngrid[:-1] +
xeldim/2`).  With an empty `zcoords` no node is ever written, so
`nodelist` is still the initial python list `[]` and
`nodelist[:, 0]` on line 212 raises `TypeError`, modelled by `none`. -/
def make_mesh (xeldim yeldim xmin ymin xmax ymax : ℚ) (zcoords : List ℚ)
    (polygs : List (ℚ × (ℚ → ℚ → Bool))) :
    Option (List (ℚ × List (ℕ × ℕ)) × List MeshNode × List (List ℕ)) :=
  match arange (xmin - xeldim) (xmax + 2 * xeldim) xeldim with
  | none => none
  | some xngrid =>
    match arange (ymin - yeldim) (ymax + 2 * yeldim) yeldim with
    | none => none
    | some yngrid =>
      let xelgrid := xngrid.dropLast.map (· + xeldim / 2)
      let yelgrid := yngrid.dropLast.map (· + yeldim / 2)
      match rasterize polygs xelgrid yelgrid zcoords with
      | none => none
      | some elemlist =>
        let st0 : MeshState := ⟨1, 1, [], [], [], 0⟩
        let stF := (List.range zcoords.length).foldl
          (fun st z => processLevelM xngrid yngrid zcoords z
            ((lookupD elemlist (zcoords.getD z 0)).getD []) st) st0
        if stF.nodes.isEmpty then none
        else some (elemlist, stF.nodes, stF.elconnect)

/-- Coordinate triple of a node-table row. -/
def nodeCoord (n : MeshNode) : ℚ × ℚ × ℚ := (n.x, n.y, n.z)

/-- No two rows of the node table share the same (x, y, z). -/
def coordsDistinct (l : List MeshNode) : Prop :=
  l.Pairwise fun a b => nodeCoord a ≠ nodeCoord b

/-- Well-formedness of one connectivity row with respect to a node
table: `[eID, n1, …, n8]` with eight pairwise distinct node ids, each
of which is the id of some node-table row. -/
def elemRowOk (nodes : List MeshNode) (row : List ℕ) : Prop :=
  ∃ e ids, row = e :: ids ∧ ids.length = 8 ∧ ids.Nodup ∧
    ∀ i ∈ ids, ∃ n ∈ nodes, n.nid = i

/-- The two heights at which slice `w` writes nodes: its own elevation
and its elevation plus its element height. -/
def heightIn (zcoords : List ℚ) (w : ℕ) (h : ℚ) : Prop :=
  h = zcoords.getD w 0 ∨ h = zcoords.getD w 0 + elhAt zcoords w

/-- Slice index during which node row `i` was written, recovered from
the cumulative `ignore` markers: the number of completed slices whose
final node count is at most `i`. -/
def lvlOf (ig : List ℕ) (i : ℕ) : ℕ := (ig.filter fun c => decide (c ≤ i)).length

/-- A one-level `polygs` input whose MultiPolygon contains exactly the
element centre `(1/2, 1/2)` of the unit grid around the origin. -/
def cexPolygs : List (ℚ × (ℚ → ℚ → Bool)) :=
  [(0, fun a b => (a == (1 : ℚ)/2) && (b == (1 : ℚ)/2))]

/-- The mesh produced by a single-level run on `cexPolygs`. -/
def cexMesh : List (ℚ × List (ℕ × ℕ)) × List MeshNode × List (List ℕ) :=
  (make_mesh 1 1 0 0 0 0 [0] cexPolygs).getD ([], [], [])

/-- Two-level variant of `cexPolygs`, used as a concrete well-behaved
mesher input. -/
def witPolygs : List (ℚ × (ℚ → ℚ → Bool)) :=
  [(0, fun a b => (a == (1 : ℚ)/2) && (b == (1 : ℚ)/2)),
   (1, fun a b => (a == (1 : ℚ)/2) && (b == (1 : ℚ)/2))]

/-- The mesh produced by the two-level run on `witPolygs`. -/
def witMesh : List (ℚ × List (ℕ × ℕ)) × List MeshNode × List (List ℕ) :=
  (make_mesh 1 1 0 0 0 0 [0, 1] witPolygs).getD ([], [], [])

/-- A mesher state whose lookback window already contains a duplicated
coordinate (two nodes at the origin), exercising the `len(nexists)`
branches of the deduplication. -/
def dupSt : MeshState :=
  { nodeID := 3, elID := 2,
    nodes := [⟨1, 0, 0, 0⟩, ⟨2, 0, 0, 0⟩],
    elconnect := [], ignore := [], zignore := 2 }

end Cloud2FEM

namespace Cloud2FEM

/-! ### Facts about the level generator -/

theorem truncInt_natCast (n : ℕ) : truncInt (n : ℚ) = n := by
  simp only [truncInt, Rat.num_natCast, Rat.den_natCast, Nat.div_one]
  cases n with
  | zero => simp
  | succ m =>
    rw [Int.sign_eq_one_of_pos (by positivity)]
    simp only [Int.natAbs_ofNat, one_mul]

theorem make_zcoords_one (a b c : ℚ) :
    make_zcoords a b c 1 = linspace a b (truncInt c) := by
  simp [make_zcoords]

theorem make_zcoords_two (a b c : ℚ) :
    make_zcoords a b c 2 = arange a b c := by
  simp [make_zcoords]

theorem linspace_eq (a b : ℚ) (n : ℤ) (hn : 0 ≤ n) :
    linspace a b n = some ((List.range n.toNat).map
      fun i : ℕ => a + (i : ℚ) * (b - a) / ((n : ℚ) - 1)) := by
  simp [linspace, not_lt.mpr hn]

theorem arange_eq (a b step : ℚ) (hs : step ≠ 0) :
    arange a b step = some ((List.range (arangeLen a b step)).map
      fun i : ℕ => a + (i : ℚ) * step) := by
  simp [arange, hs]

theorem getD_range_map (f : ℕ → ℚ) (n i : ℕ) (hi : i < n) :
    (((List.range n).map f).getD i 0) = f i := by
  rw [List.getD_eq_getElem?_getD]
  simp [List.getElem?_map, List.getElem?_range, hi]

theorem pairwise_range_map_lt (f : ℕ → ℚ) (n : ℕ)
    (hf : ∀ i j, i < j → j < n → f i < f j) :
    ((List.range n).map f).Pairwise (· < ·) := by
  rw [List.pairwise_map]
  rw [List.pairwise_iff_getElem]
  intro i j hi hj hij
  simp only [List.getElem_range]
  exact hf i j hij (by simpa using hj)

/-- C4, counterexample: with lower bound 10 ≥ upper bound 0 and the
fixed-count rule, `make_zcoords` does not fail at all — it returns the
decreasing sequence `[10, 7.5, 5, 2.5, 0]`, so no `InvalidRangeError`
is raised and a level set is in fact returned. -/
theorem make_zcoords_no_error_on_reversed_bounds :
    make_zcoords 10 0 5 1 = some [10, 15/2, 5, 5/2, 0] := by
  with_unfolding_all decide

/-- C4, amended claim: `make_zcoords` performs no range validation and
raises no `InvalidRangeError`.  With the fixed-count rule it returns a
linspace sequence even when lower ≥ upper (for any nonnegative count);
with the fixed-step rule and a positive step it returns the empty
sequence when lower ≥ upper; the only failing inputs fail inside numpy
(negative count, zero step), not with `InvalidRangeError`. -/
theorem make_zcoords_no_validation :
    (∀ a b c : ℚ, b ≤ a → 0 ≤ truncInt c → ∃ l, make_zcoords a b c 1 = some l) ∧
    (∀ a b c : ℚ, b ≤ a → 0 < c → make_zcoords a b c 2 = some []) ∧
    (∀ a b : ℚ, make_zcoords a b 0 2 = none) := by
  refine ⟨?_, ?_, ?_⟩
  · intro a b c _ hc
    exact ⟨_, by rw [make_zcoords_one]; exact linspace_eq a b _ hc⟩
  · intro a b c hba hc
    have hq : (b - a) / c ≤ 0 :=
      div_nonpos_of_nonpos_of_nonneg (by linarith) hc.le
    have hlen : arangeLen a b c = 0 := by
      simp only [arangeLen, Int.toNat_eq_zero]
      exact Int.ceil_le.mpr (by exact_mod_cast hq)
    rw [make_zcoords_two, arange_eq a b c hc.ne', hlen]
    simp
  · intro a b
    rw [make_zcoords_two]
    simp [arange]

theorem make_zcoords_no_validation_witness :
    (0 : ℚ) ≤ 10 ∧ (0 : ℚ) < 2 ∧
    (∃ l, make_zcoords 10 0 5 1 = some l) ∧
    make_zcoords 10 0 2 2 = some [] ∧
    make_zcoords 0 10 0 2 = none := by
  refine ⟨by norm_num, by norm_num,
    make_zcoords_no_validation.1 10 0 5 (by norm_num) (by decide),
    make_zcoords_no_validation.2.1 10 0 2 (by norm_num) (by norm_num),
    make_zcoords_no_validation.2.2 0 10⟩

/-- C9: for valid configurations the produced level set is strictly
increasing and matches the requested rule exactly.  Fixed-count rule:
`count` values, starting at the lower bound, ending at the upper bound,
with constant spacing `(b-a)/(count-1)`; the documented example
`make_zcoords 0 10 5 1 = [0, 2.5, 5, 7.5, 10]` holds.  Fixed-step rule:
the arithmetic sequence `a, a+s, a+2s, …` of maximal length below the
upper bound (exclusive): `a + i·s` is in the result iff `a + i·s < b`. -/
theorem make_zcoords_valid_rules :
    (∀ (a b : ℚ) (n : ℕ), a < b → 1 ≤ n →
      ∃ l, make_zcoords a b (n : ℚ) 1 = some l ∧
        l.Pairwise (· < ·) ∧ l.length = n ∧ l.getD 0 0 = a ∧
        (2 ≤ n → l.getD (n - 1) 0 = b) ∧
        (∀ i, i < n → l.getD i 0 = a + i * (b - a) / ((n : ℚ) - 1))) ∧
    (∀ (a b s : ℚ), a < b → 0 < s →
      ∃ l, make_zcoords a b s 2 = some l ∧
        l.Pairwise (· < ·) ∧ 0 < l.length ∧ l.getD 0 0 = a ∧
        (∀ i, i < l.length → l.getD i 0 = a + i * s) ∧
        (∀ i : ℕ, a + i * s < b ↔ i < l.length)) ∧
    make_zcoords 0 10 5 1 = some [0, 5/2, 5, 15/2, 10] := by
  refine ⟨?_, ?_, by with_unfolding_all decide⟩
  · intro a b n hab hn
    have hz : make_zcoords a b (n : ℚ) 1 =
        some ((List.range n).map fun i : ℕ => a + (i : ℚ) * (b - a) / ((n : ℚ) - 1)) := by
      rw [make_zcoords_one, truncInt_natCast,
        linspace_eq a b n (Int.natCast_nonneg n)]
      simp only [Int.toNat_natCast, Int.cast_natCast]
    refine ⟨_, hz, ?_, by simp, ?_, ?_, ?_⟩
    · refine pairwise_range_map_lt _ n fun i j hij hj => ?_
      have h2 : 2 ≤ n := by omega
      have hd : (0 : ℚ) < (b - a) / ((n : ℚ) - 1) := by
        apply div_pos (by linarith)
        have : (2 : ℚ) ≤ (n : ℚ) := by exact_mod_cast h2
        linarith
      have hij' : (i : ℚ) < (j : ℚ) := by exact_mod_cast hij
      calc a + i * (b - a) / ((n : ℚ) - 1)
          = a + i * ((b - a) / ((n : ℚ) - 1)) := by ring
        _ < a + j * ((b - a) / ((n : ℚ) - 1)) := by
            have := mul_lt_mul_of_pos_right hij' hd
            linarith
        _ = a + j * (b - a) / ((n : ℚ) - 1) := by ring
    · rw [getD_range_map _ n 0 (by omega)]; simp
    · intro h2
      rw [getD_range_map _ n (n - 1) (by omega)]
      have hne : ((n : ℚ) - 1) ≠ 0 := by
        have : (2 : ℚ) ≤ (n : ℚ) := by exact_mod_cast h2
        linarith
      have hcast : ((n - 1 : ℕ) : ℚ) = (n : ℚ) - 1 := by
        have : (1 : ℕ) ≤ n := hn
        push_cast [Nat.cast_sub this]
        ring
      rw [hcast]
      field_simp
    · intro i hi
      exact getD_range_map _ n i hi
  · intro a b s hab hs
    have hz : make_zcoords a b s 2 =
        some ((List.range (arangeLen a b s)).map fun i : ℕ => a + (i : ℚ) * s) := by
      rw [make_zcoords_two, arange_eq a b s hs.ne']
    have hlen : ∀ i : ℕ, a + i * s < b ↔ i < arangeLen a b s := by
      intro i
      rw [arangeLen, Int.lt_toNat, Int.lt_ceil]
      rw [lt_div_iff₀ hs]
      constructor <;> intro h <;> [skip; skip] <;> push_cast at h ⊢ <;> linarith
    have hpos : 0 < arangeLen a b s := by
      rw [← hlen 0]; push_cast; linarith
    refine ⟨_, hz, ?_, by simpa using hpos, ?_, ?_, ?_⟩
    · refine pairwise_range_map_lt _ _ fun i j hij hj => ?_
      have hij' : (i : ℚ) < (j : ℚ) := by exact_mod_cast hij
      have := mul_lt_mul_of_pos_right hij' hs
      linarith
    · rw [getD_range_map _ _ 0 hpos]; simp
    · intro i hi
      rw [List.length_map, List.length_range] at hi
      exact getD_range_map _ _ i hi
    · intro i
      rw [hlen i]
      simp

theorem make_zcoords_valid_rules_witness :
    (0 : ℚ) < 10 ∧ 1 ≤ 5 ∧ (0 : ℚ) < 3 ∧
    (∃ l, make_zcoords 0 10 (5 : ℕ) 1 = some l ∧
      l.Pairwise (· < ·) ∧ l.length = 5 ∧ l.getD 0 0 = 0 ∧
      (2 ≤ 5 → l.getD (5 - 1) 0 = 10) ∧
      (∀ i, i < 5 → l.getD i 0 = 0 + (i : ℚ) * (10 - 0) / ((5 : ℚ) - 1))) ∧
    (∃ l, make_zcoords 0 10 3 2 = some l ∧
      l.Pairwise (· < ·) ∧ 0 < l.length ∧ l.getD 0 0 = 0 ∧
      (∀ i, i < l.length → l.getD i 0 = 0 + (i : ℚ) * 3) ∧
      (∀ i : ℕ, (0 : ℚ) + i * 3 < 10 ↔ i < l.length)) := by
  exact ⟨by norm_num, by norm_num, by norm_num,
    make_zcoords_valid_rules.1 0 10 5 (by norm_num) (by norm_num),
    make_zcoords_valid_rules.2.1 0 10 3 (by norm_num) (by norm_num)⟩

/-! ### Facts about the slicer -/

theorem inBand_iff (z thick : ℚ) (p : P3) :
    inBand z thick p = true ↔ |p.z - z| ≤ thick / 2 := by
  rw [inBand, abs_sub_le_iff]
  simp only [Bool.and_eq_true, decide_eq_true_eq]
  constructor <;> intro h <;> exact ⟨by linarith [h.1, h.2], by linarith [h.1, h.2]⟩

/-- C7: every point placed in a level's slice lies within half a
thickness of that level; a point outside every band is kept in the
complementary point cloud (exactly once when the cloud has no repeated
point), and a point inside some band never appears there. -/
theorem make_slices_containment (zcoords : List ℚ) (pcl : List P3) (thick : ℚ)
    (_hthick : 0 < thick) :
    (∀ zs ∈ (make_slices zcoords pcl thick).1, ∀ p ∈ zs.2, |p.z - zs.1| ≤ thick / 2) ∧
    (∀ p ∈ pcl, (∀ z ∈ zcoords, ¬ |p.z - z| ≤ thick / 2) →
      p ∈ (make_slices zcoords pcl thick).2 ∧
      (pcl.Nodup → (make_slices zcoords pcl thick).2.count p = 1)) ∧
    (∀ p ∈ pcl, ∀ z ∈ zcoords, |p.z - z| ≤ thick / 2 →
      p ∉ (make_slices zcoords pcl thick).2) := by
  refine ⟨?_, ?_, ?_⟩
  · intro zs hzs p hp
    simp only [make_slices, List.mem_map] at hzs
    obtain ⟨z, _, rfl⟩ := hzs
    simp only [List.mem_filter] at hp
    exact (inBand_iff z thick p).mp hp.2
  · intro p hp hout
    have hkeep : (fun q => zcoords.all fun z => !(inBand z thick q)) p = true := by
      simp only [List.all_eq_true, Bool.not_eq_true']
      intro z hz
      rw [Bool.eq_false_iff]
      intro hb
      exact hout z hz ((inBand_iff z thick p).mp hb)
    refine ⟨List.mem_filter.mpr ⟨hp, hkeep⟩, fun hnd => ?_⟩
    exact List.count_eq_one_of_mem (hnd.filter _) (List.mem_filter.mpr ⟨hp, hkeep⟩)
  · intro p _ z hz hband hmem
    simp only [make_slices, List.mem_filter, List.all_eq_true] at hmem
    have := hmem.2 z hz
    rw [(inBand_iff z thick p).mpr hband] at this
    simp at this

/-! ### Facts about the centroid tracer -/

theorem grow_succ_cons (tol : ℚ) (tolpt fuel : ℕ) (ctrds : List P2)
    (last p : P2) (rest : List P2) :
    grow tol tolpt (fuel + 1) ctrds last (p :: rest) =
      (let empsl := p :: rest
       let k := argminIdx (empsl.map fun q => distSq q last)
       let nearest := empsl.getD k ⟨0, 0⟩
       let empsl1 := empsl.eraseIdx k
       let nearpts := empsl1.filter fun q => nearB nearest q tol
       if nearpts.length < tolpt ∧ 0 < empsl1.length then
         grow tol tolpt fuel ctrds last empsl1
       else if empsl1.length < 1 then .ok ctrds
       else
         let c := meanPt nearpts
         let empsl2 := empsl1.filter fun q => !(nearB nearest q tol)
         if empsl2.length < 1 then .ok (ctrds ++ [c])
         else grow tol tolpt fuel (ctrds ++ [c]) c empsl2) := rfl

theorem filter_not_disjoint (tol : ℚ) (nearest : P2) (l : List P2) :
    valueDisjoint (l.filter fun q => nearB nearest q tol)
      (l.filter fun q => !(nearB nearest q tol)) := by
  intro p hp hpn
  have h1 := (List.mem_filter.mp hp).2
  have h2 := (List.mem_filter.mp hpn).2
  rw [h1] at h2
  exact absurd h2 (by simp)

theorem grow_spec (tol : ℚ) (tolpt : ℕ) :
    ∀ (fuel : ℕ) (ctrds : List P2) (last : P2) (empsl out : List P2),
      grow tol tolpt fuel ctrds last empsl = .ok out →
      ∃ gs : List (List P2), out = ctrds ++ gs.map meanPt ∧
        (∀ g ∈ gs, subsetOf g empsl) ∧ gs.Pairwise valueDisjoint := by
  intro fuel
  induction fuel with
  | zero =>
    intro ctrds last empsl out h
    cases empsl <;> simp [grow] at h
  | succ fuel ih =>
    intro ctrds last empsl out h
    cases empsl with
    | nil => simp [grow] at h
    | cons p rest =>
      rw [grow_succ_cons] at h
      dsimp only at h
      set k := argminIdx ((p :: rest).map fun q => distSq q last) with hk
      set nearest := (p :: rest).getD k ⟨0, 0⟩ with hnst
      set E1 := (p :: rest).eraseIdx k with hE1
      set NP := E1.filter (fun q => nearB nearest q tol) with hNP
      set E2 := E1.filter (fun q => !(nearB nearest q tol)) with hE2
      have hE1sub : E1 ⊆ p :: rest := by rw [hE1]; exact List.eraseIdx_subset _ _
      have hNPsub : NP ⊆ p :: rest := by
        rw [hNP]; intro q hq; exact hE1sub (List.mem_of_mem_filter hq)
      have hE2sub : E2 ⊆ p :: rest := by
        rw [hE2]; intro q hq; exact hE1sub (List.mem_of_mem_filter hq)
      by_cases h1 : NP.length < tolpt ∧ 0 < E1.length
      · rw [if_pos h1] at h
        obtain ⟨gs, hout, hsub, hpw⟩ := ih ctrds last E1 out h
        exact ⟨gs, hout, fun g hg q hq => hE1sub (hsub g hg q hq), hpw⟩
      · rw [if_neg h1] at h
        by_cases h2 : E1.length < 1
        · rw [if_pos h2] at h
          exact ⟨[], by simpa using (Except.ok.injEq _ _).mp h |>.symm, by simp, by simp⟩
        · rw [if_neg h2] at h
          by_cases h3 : E2.length < 1
          · rw [if_pos h3] at h
            refine ⟨[NP], ?_, ?_, by simp⟩
            · simpa using ((Except.ok.injEq _ _).mp h).symm
            · intro g hg
              simp only [List.mem_singleton] at hg
              subst hg
              exact fun q hq => hNPsub hq
          · rw [if_neg h3] at h
            obtain ⟨gs, hout, hsub, hpw⟩ := ih (ctrds ++ [meanPt NP]) (meanPt NP) E2 out h
            refine ⟨NP :: gs, by simpa using hout, ?_, ?_⟩
            · intro g hg
              rcases List.mem_cons.mp hg with hg | hg
              · subst hg; exact fun q hq => hNPsub hq
              · exact fun q hq => hE2sub (hsub g hg q hq)
            · refine List.pairwise_cons.mpr ⟨?_, hpw⟩
              intro g hg q hq hqg
              exact filter_not_disjoint tol nearest E1 q hq (hsub g hg q hqg)

theorem seed_spec (tol : ℚ) (tolpt : ℕ) :
    ∀ (empsl : List P2) (c0 : P2) (rest : List P2),
      seed tol tolpt empsl = some (c0, rest) →
      ∃ g, c0 = meanPt g ∧ subsetOf g empsl ∧ subsetOf rest empsl ∧
        valueDisjoint g rest := by
  intro empsl
  induction empsl with
  | nil => intro c0 rest h; simp [seed] at h
  | cons stpnt tail ih =>
    intro c0 rest h
    rw [seed] at h
    by_cases h1 : (tail.filter fun q => nearB stpnt q tol).length < tolpt
    · rw [if_pos h1] at h
      obtain ⟨g, hc0, hg, hrest, hdisj⟩ := ih c0 rest h
      exact ⟨g, hc0, fun q hq => List.mem_cons_of_mem _ (hg q hq),
        fun q hq => List.mem_cons_of_mem _ (hrest q hq), hdisj⟩
    · rw [if_neg h1] at h
      obtain ⟨hc0, hrest⟩ := Prod.mk.injEq .. ▸ (Option.some.injEq _ _).mp h
      refine ⟨tail.filter fun q => nearB stpnt q tol, hc0.symm, ?_, ?_, ?_⟩
      · exact fun q hq => List.mem_cons_of_mem _ (List.mem_of_mem_filter hq)
      · intro q hq
        rw [← hrest] at hq
        exact List.mem_cons_of_mem _ (List.mem_of_mem_filter hq)
      · intro q hq hqrest
        rw [← hrest] at hqrest
        exact filter_not_disjoint tol stpnt tail q hq hqrest

/-- C8: whenever `find_centroids` returns a chain for a slice (for any
working radius and thresholds), the chain is exactly the list of means
of a sequence of neighbour groups that are subsets of the slice's
points and pairwise disjoint: no input point contributes to two
centroids. -/
theorem centroid_chain_disjoint_groups (tol : ℚ) (tolpt tolsl : ℕ)
    (pts chain : List P2)
    (h : trace_slice tol tolpt tolsl pts = .ok (some chain)) :
    ∃ groups : List (List P2), chain = groups.map meanPt ∧
      (∀ g ∈ groups, subsetOf g pts) ∧ groups.Pairwise valueDisjoint := by
  rw [trace_slice] at h
  by_cases hsl : pts.length < tolsl
  · rw [if_pos hsl] at h
    simp at h
  · rw [if_neg hsl] at h
    cases hseed : seed tol tolpt pts with
    | none => rw [hseed] at h; simp at h
    | some pr =>
      obtain ⟨c0, rest⟩ := pr
      rw [hseed] at h
      dsimp only at h
      cases hg : grow tol tolpt (rest.length + 1) [c0] c0 rest with
      | error e => rw [hg] at h; simp [Except.map] at h
      | ok res =>
        rw [hg] at h
        simp only [Except.map, Except.ok.injEq, Option.some.injEq] at h
        subst h
        obtain ⟨gs, hout, hsub, hpw⟩ :=
          grow_spec tol tolpt (rest.length + 1) [c0] c0 rest res hg
        obtain ⟨g0, hc0, hg0, hrest, hdisj⟩ :=
          seed_spec tol tolpt pts c0 rest hseed
        refine ⟨g0 :: gs, ?_, ?_, ?_⟩
        · rw [hout, hc0]; simp
        · intro g hgmem
          rcases List.mem_cons.mp hgmem with hgmem | hgmem
          · subst hgmem; exact hg0
          · exact fun q hq => hrest q (hsub g hgmem q hq)
        · refine List.pairwise_cons.mpr ⟨?_, hpw⟩
          intro g hgmem q hq hqg
          exact hdisj q hq (hsub g hgmem q hqg)

theorem centroid_chain_disjoint_groups_witness :
    trace_slice 1 1 0 [⟨0,0⟩, ⟨1,0⟩, ⟨5,0⟩, ⟨6,0⟩] =
      .ok (some [⟨1,0⟩, ⟨6,0⟩]) ∧
    ∃ groups : List (List P2), [(⟨1,0⟩ : P2), ⟨6,0⟩] = groups.map meanPt ∧
      (∀ g ∈ groups, subsetOf g [⟨0,0⟩, ⟨1,0⟩, ⟨5,0⟩, ⟨6,0⟩]) ∧
      groups.Pairwise valueDisjoint :=
  ⟨by with_unfolding_all rfl,
   centroid_chain_disjoint_groups 1 1 0 _ _ (by with_unfolding_all rfl)⟩

theorem make_slices_containment_witness :
    (0 : ℚ) < 1 ∧
    (∀ zs ∈ (make_slices [0, 10] [⟨0,0,0⟩, ⟨0,0,5⟩] 1).1,
      ∀ p ∈ zs.2, |p.z - zs.1| ≤ 1 / 2) ∧
    ((⟨0,0,5⟩ : P3) ∈ [(⟨0,0,0⟩ : P3), ⟨0,0,5⟩] ∧
      (make_slices [0, 10] [⟨0,0,0⟩, ⟨0,0,5⟩] 1).2.count ⟨0,0,5⟩ = 1) := by
  have h := make_slices_containment [0, 10] [⟨0,0,0⟩, ⟨0,0,5⟩] 1 (by norm_num)
  refine ⟨by norm_num, h.1, by with_unfolding_all decide, ?_⟩
  exact (h.2.1 ⟨0,0,5⟩ (by with_unfolding_all decide)
    (by with_unfolding_all decide)).2 (by with_unfolding_all decide)

end Cloud2FEM

namespace Cloud2FEM

/-! ### Facts about the polygon builder -/

theorem repairGo_invalid_abandons {Pg : Type} (ops : GeomOps Pg) (minw : ℚ) :
    ∀ (fuel : ℕ) (tolsimpl : ℚ) (p : Pg), ops.is_valid p = false →
      repairGo ops minw fuel tolsimpl p = none ∨
      ∃ t, repairGo ops minw fuel tolsimpl p = some (t, false, p) := by
  intro fuel
  induction fuel with
  | zero => intro tolsimpl p _; left; rfl
  | succ fuel ih =>
    intro tolsimpl p hp
    rw [repairGo, hp]
    by_cases h2 : minw / (5 / 2) ≤ tolsimpl ∧ ¬(false = true)
    · right
      exact ⟨tolsimpl, by rw [if_neg (by simp), if_pos h2]⟩
    · rw [if_neg (by simp), if_neg h2]
      exact ih (tolsimpl + minw / 50) p hp

/-- C3, the code bug: the repair loop never repairs anything, because
the result of `newpgon.simplify(tolsimpl, preserve_topology=True)` is
discarded.  Concretely, with `minwthick = 1` and initial tolerance
`0.035`, a ring that starts invalid is carried unchanged through 19
tolerance increments and abandoned at `tolsimpl = 0.415 ≥ 1/2.5`
(flagging the level in `invalidpolygons`), even though the instance's
`simplify` returns a valid ring at every tolerance — so re-simplifying
could have repaired it, but the code never uses the result. -/
theorem polygon_repair_discards_simplify :
    boolRepairOps.simplify false (7 / 200 + 1 / 50) = true ∧
    boolRepairOps.is_valid true = true ∧
    repairGo boolRepairOps 1 30 (7 / 200) false = some (83 / 200, false, false) ∧
    processPolyline boolRepairOps 1 30 ⟨7 / 200, none⟩ [] =
      some (⟨83 / 200, some false⟩, none, true) := by
  with_unfolding_all decide

theorem range_foldl_getD {Pg : Type} (sym : Pg → Pg → Pg) (d : Pg) :
    ∀ (ps : List Pg) (acc : Pg),
      (List.range ps.length).foldl (fun temp j => sym temp (ps.getD j d)) acc
        = ps.foldl sym acc := by
  intro ps
  induction ps with
  | nil => intro acc; simp
  | cons x xs ih =>
    intro acc
    rw [List.length_cons, List.range_succ_eq_map]
    simp only [List.foldl_cons, List.foldl_map, List.getD_cons_succ,
      List.getD_cons_zero]
    exact ih (sym acc x)

theorem combineLoop_eq_foldl {Pg : Type} (sym : Pg → Pg → Pg) (p : Pg)
    (ps : List Pg) :
    combineLoop sym (p :: ps) = some (ps.foldl sym p) := by
  rw [combineLoop]
  by_cases h : 2 ≤ (p :: ps).length
  · rw [if_pos h]
    have hlen : (p :: ps).length - 1 = ps.length := by simp
    rw [hlen]
    congr 1
    simp only [List.getD_cons_succ]
    exact range_foldl_getD sym p ps p
  · rw [if_neg h]
    have : ps = [] := by
      cases ps with
      | nil => rfl
      | cons y ys => simp at h
    subst this
    simp

/-- C6: whenever `make_polygons` finishes a level, the `polygs[z]`
entry is absent when the level kept zero valid polygons, and otherwise
equals the left fold of the kept polygons under
`symmetric_difference` (and not any other boolean combination): the
imperative `temp = temp.symmetric_difference(pgons[j+1])` loop is
exactly `List.foldl`. -/
theorem level_multipolygon_symdiff {Pg : Type} (ops : GeomOps Pg) (minw : ℚ)
    (fuel : ℕ) (st : MPState Pg) (z : ℚ) (polylines : List (List P2))
    (st' : MPState Pg) (entry : Option (ℚ × Pg)) (nflag : ℕ)
    (h : processLevelP ops minw fuel st z polylines = some (st', entry, nflag)) :
    ∃ kept : List Pg,
      levelPgons ops minw fuel st polylines = some (st', kept, nflag) ∧
      (kept = [] → entry = none) ∧
      (∀ p ps, kept = p :: ps →
        entry = some (z, ps.foldl ops.symmetric_difference p)) := by
  rw [processLevelP] at h
  cases hlv : levelPgons ops minw fuel st polylines with
  | none => rw [hlv] at h; simp at h
  | some res =>
    obtain ⟨st'', pgons, nflag'⟩ := res
    rw [hlv] at h
    simp only [Option.some.injEq, Prod.mk.injEq] at h
    obtain ⟨hst, hentry, hnflag⟩ := h
    subst hst hnflag
    refine ⟨pgons, rfl, ?_, ?_⟩
    · intro hnil
      subst hnil
      rw [← hentry]
      rfl
    · intro p ps hcons
      subst hcons
      rw [← hentry, combineLoop_eq_foldl]
      rfl

theorem level_multipolygon_symdiff_witness :
    ∃ kept : List ℕ,
      levelPgons natFoldOps 1 10 ⟨0, none⟩
          [[⟨0,0⟩], [⟨0,0⟩,⟨1,1⟩], [⟨0,0⟩,⟨1,1⟩,⟨2,2⟩]] =
        some (⟨0, some 3⟩, kept, 0) ∧
      (kept = [] → (some ((3 : ℚ), 123) : Option (ℚ × ℕ)) = none) ∧
      (∀ p ps, kept = p :: ps →
        (some ((3 : ℚ), 123) : Option (ℚ × ℕ)) =
          some (3, ps.foldl natFoldOps.symmetric_difference p)) :=
  level_multipolygon_symdiff natFoldOps 1 10 ⟨0, none⟩ 3
    [[⟨0,0⟩], [⟨0,0⟩,⟨1,1⟩], [⟨0,0⟩,⟨1,1⟩,⟨2,2⟩]] ⟨0, some 3⟩
    (some ((3 : ℚ), 123)) 0 (by with_unfolding_all rfl)

end Cloud2FEM

namespace Cloud2FEM

/-! ### Facts about the voxel mesher -/

theorem getD_lt_getD (zc : List ℚ) (hmono : zc.Pairwise (· < ·))
    (i j : ℕ) (hij : i < j) (hj : j < zc.length) :
    zc.getD i 0 < zc.getD j 0 := by
  have hi : i < zc.length := lt_trans hij hj
  rw [List.getD_eq_getElem _ _ hi, List.getD_eq_getElem _ _ hj]
  exact List.pairwise_iff_getElem.mp hmono i j hi hj hij

theorem getD_inj (zc : List ℚ) (hmono : zc.Pairwise (· < ·))
    (i j : ℕ) (hi : i < zc.length) (hj : j < zc.length)
    (h : zc.getD i 0 = zc.getD j 0) : i = j := by
  rcases lt_trichotomy i j with hlt | he | hlt
  · exact absurd h (ne_of_lt (getD_lt_getD zc hmono i j hlt hj))
  · exact he
  · exact absurd h.symm (ne_of_lt (getD_lt_getD zc hmono j i hlt hi))

theorem elhAt_of_not_last (zc : List ℚ) (z : ℕ) (h : z + 1 < zc.length) :
    elhAt zc z = zc.getD (z + 1) 0 - zc.getD z 0 := by
  rw [elhAt, if_pos (by omega)]

theorem elhAt_last (zc : List ℚ) (z : ℕ) (h : z + 1 = zc.length) (h1 : 1 ≤ z) :
    elhAt zc z = zc.getD z 0 - zc.getD (z - 1) 0 := by
  rw [elhAt, if_neg (by omega), if_neg (by omega)]

theorem elhAt_pos (zc : List ℚ) (hmono : zc.Pairwise (· < ·))
    (hlen2 : 2 ≤ zc.length) (z : ℕ) (hz : z < zc.length) :
    0 < elhAt zc z := by
  by_cases h : z + 1 < zc.length
  · rw [elhAt_of_not_last _ _ h]
    have := getD_lt_getD zc hmono z (z + 1) (by omega) h
    linarith
  · have hz1 : z + 1 = zc.length := by omega
    have h1 : 1 ≤ z := by omega
    rw [elhAt_last _ _ hz1 h1]
    have := getD_lt_getD zc hmono (z - 1) z (by omega) hz
    linarith

theorem heightIn_not_last (zc : List ℚ) (w : ℕ) (hw : w + 1 < zc.length)
    (h : ℚ) :
    heightIn zc w h ↔ (h = zc.getD w 0 ∨ h = zc.getD (w + 1) 0) := by
  rw [heightIn, elhAt_of_not_last _ _ hw]
  constructor
  · rintro (h1 | h1)
    · exact Or.inl h1
    · right; rw [h1]; ring
  · rintro (h1 | h1)
    · exact Or.inl h1
    · right; rw [h1]; ring

theorem height_inter (zc : List ℚ) (hmono : zc.Pairwise (· < ·))
    (hlen2 : 2 ≤ zc.length) (w z : ℕ) (hwz : w ≤ z) (hz : z < zc.length)
    (h : ℚ) (hw : heightIn zc w h) (hzc : heightIn zc z h) :
    w = z ∨ (w + 1 = z ∧ h = zc.getD z 0) := by
  rcases eq_or_lt_of_le hwz with rfl | hlt
  · exact Or.inl rfl
  have hw1 : w + 1 < zc.length := by omega
  rw [heightIn_not_last zc w hw1 h] at hw
  by_cases hzl : z + 1 < zc.length
  · rw [heightIn_not_last zc z hzl h] at hzc
    rcases hw with h1 | h1 <;> rcases hzc with h2 | h2
    · exact absurd (getD_inj zc hmono w z (by omega) hz (by rw [← h1, h2]))
        (by omega)
    · exact absurd (getD_inj zc hmono w (z + 1) (by omega) hzl
        (by rw [← h1, h2])) (by omega)
    · exact Or.inr ⟨getD_inj zc hmono (w + 1) z (by omega) hz
        (by rw [← h1, h2]), h2⟩
    · exact absurd (getD_inj zc hmono (w + 1) (z + 1) (by omega) hzl
        (by rw [← h1, h2])) (by omega)
  · have hz1 : z + 1 = zc.length := by omega
    have h1z : 1 ≤ z := by omega
    rw [heightIn, elhAt_last zc z hz1 h1z] at hzc
    have hble : h ≤ zc.getD z 0 := by
      rcases hw with h1 | h1
      · have := getD_lt_getD zc hmono w z hlt hz
        rw [h1]; linarith
      · rcases Nat.eq_or_lt_of_le (Nat.succ_le_of_lt hlt) with he | hlt2
        · have he2 : w + 1 = z := he
          rw [h1, he2]
        · have := getD_lt_getD zc hmono (w + 1) z hlt2 hz
          rw [h1]; linarith
    rcases hzc with h2 | h2
    · rcases hw with h1 | h1
      · exact absurd (getD_inj zc hmono w z (by omega) hz (by rw [← h1, h2]))
          (by omega)
      · exact Or.inr ⟨getD_inj zc hmono (w + 1) z (by omega) hz
          (by rw [← h1, h2]), h2⟩
    · exfalso
      have hprev := getD_lt_getD zc hmono (z - 1) z (by omega) hz
      rw [h2] at hble
      linarith

theorem lvlOf_le_length (ig : List ℕ) (i : ℕ) : lvlOf ig i ≤ ig.length :=
  List.length_filter_le _ _

theorem lvlOf_eq_length (ig : List ℕ) (i : ℕ) (h : ∀ c ∈ ig, c ≤ i) :
    lvlOf ig i = ig.length := by
  rw [lvlOf, List.filter_eq_self.mpr (fun c hc => by simpa using h c hc)]

theorem lvlOf_append_lt (ig : List ℕ) (m i : ℕ) (h : i < m) :
    lvlOf (ig ++ [m]) i = lvlOf ig i := by
  rw [lvlOf, lvlOf, List.filter_append, List.length_append]
  have : List.filter (fun c => decide (c ≤ i)) [m] = [] := by
    simp [Nat.not_le.mpr h]
  rw [this]
  simp

theorem sorted_getD_le_drop (ig : List ℕ) (hs : ig.Pairwise (· ≤ ·)) (k : ℕ)
    (hk : k < ig.length) : ∀ c ∈ ig.drop k, ig.getD k 0 ≤ c := by
  intro c hc
  obtain ⟨j, hj, rfl⟩ := List.mem_iff_getElem.mp hc
  have hkj : k + j < ig.length := by
    rw [List.length_drop] at hj; omega
  rw [List.getElem_drop, List.getD_eq_getElem _ _ hk]
  rcases Nat.eq_zero_or_pos j with rfl | hpos
  · simp
  · exact List.pairwise_iff_getElem.mp hs k (k + j) hk hkj (by omega)

theorem lvlOf_le_of_lt_marker (ig : List ℕ) (hs : ig.Pairwise (· ≤ ·))
    (k : ℕ) (hk : k < ig.length) (i : ℕ) (hi : i < ig.getD k 0) :
    lvlOf ig i ≤ k := by
  have hsplit : ig = ig.take k ++ ig.drop k := (List.take_append_drop k ig).symm
  rw [lvlOf]
  conv_lhs => rw [hsplit]
  rw [List.filter_append, List.length_append]
  have h1 : (List.filter (fun c => decide (c ≤ i)) (ig.take k)).length ≤ k := by
    refine le_trans (List.length_filter_le _ _) ?_
    rw [List.length_take]
    omega
  have h2 : (ig.drop k).filter (fun c => decide (c ≤ i)) = [] := by
    rw [List.filter_eq_nil_iff]
    intro c hc
    have := sorted_getD_le_drop ig hs k hk c hc
    simp only [decide_eq_true_eq]
    omega
  rw [h2]
  simp
  omega

end Cloud2FEM

namespace Cloud2FEM

/-- Loop invariant of the node/connectivity generation of `make_mesh`:
ids are dense from 1, coordinates are pairwise distinct, the running
counters agree with the node list, the `ignore` markers are sorted
cumulative counts, and every written node's height belongs to the
slice during which it was written. -/
structure MeshInv (zc : List ℚ) (st : MeshState) : Prop where
  nodeID_eq : st.nodeID = st.nodes.length + 1
  ids : ∀ i (hi : i < st.nodes.length), (st.nodes.get ⟨i, hi⟩).nid = i + 1
  coords : coordsDistinct st.nodes
  zig : st.zignore = st.nodes.length
  ig_sorted : st.ignore.Pairwise (· ≤ ·)
  ig_le : ∀ c ∈ st.ignore, c ≤ st.nodes.length
  ig_len : st.ignore.length ≤ zc.length
  levels : ∀ i (hi : i < st.nodes.length),
    lvlOf st.ignore i < zc.length ∧
    heightIn zc (lvlOf st.ignore i) (st.nodes.get ⟨i, hi⟩).z
  el_eq : st.elID = st.elconnect.length + 1
  rows : ∀ row ∈ st.elconnect, elemRowOk st.nodes row

theorem MeshInv.ids_getElem {zc : List ℚ} {st : MeshState} (inv : MeshInv zc st)
    (i : ℕ) (hi : i < st.nodes.length) : st.nodes[i].nid = i + 1 :=
  inv.ids i hi

theorem MeshInv.levels_getElem {zc : List ℚ} {st : MeshState}
    (inv : MeshInv zc st) (i : ℕ) (hi : i < st.nodes.length) :
    lvlOf st.ignore i < zc.length ∧
    heightIn zc (lvlOf st.ignore i) st.nodes[i].z :=
  inv.levels i hi

theorem MeshInv.nid_inj {zc : List ℚ} {st : MeshState} (inv : MeshInv zc st) :
    ∀ {n m : MeshNode}, n ∈ st.nodes → m ∈ st.nodes → n.nid = m.nid → n = m := by
  intro n m hn hm he
  obtain ⟨i, rfl⟩ := List.mem_iff_get.mp hn
  obtain ⟨j, rfl⟩ := List.mem_iff_get.mp hm
  have hi : (st.nodes.get i).nid = i.1 + 1 := inv.ids i.1 i.2
  have hj : (st.nodes.get j).nid = j.1 + 1 := inv.ids j.1 j.2
  have hij : i = j := by
    apply Fin.ext
    rw [hi, hj] at he
    omega
  rw [hij]

theorem mem_matchesIn {nodes : List MeshNode} {c : ℚ × ℚ × ℚ} {n : MeshNode} :
    n ∈ matchesIn nodes c ↔ n ∈ nodes ∧ nodeCoord n = c := by
  obtain ⟨c1, c2, c3⟩ := c
  rw [matchesIn, List.mem_filter]
  simp only [Bool.and_eq_true, beq_iff_eq]
  constructor
  · rintro ⟨hn, ⟨hx, hy⟩, hz⟩
    exact ⟨hn, by rw [nodeCoord, hx, hy, hz]⟩
  · rintro ⟨hn, hcoord⟩
    rw [nodeCoord, Prod.mk.injEq, Prod.mk.injEq] at hcoord
    exact ⟨hn, ⟨hcoord.1, hcoord.2.1⟩, hcoord.2.2⟩

theorem matchesIn_append (l1 l2 : List MeshNode) (c : ℚ × ℚ × ℚ) :
    matchesIn (l1 ++ l2) c = matchesIn l1 c ++ matchesIn l2 c := by
  rw [matchesIn, matchesIn, matchesIn, List.filter_append]

theorem matchesIn_length_le_one {nodes : List MeshNode}
    (hc : coordsDistinct nodes) (c : ℚ × ℚ × ℚ) :
    (matchesIn nodes c).length ≤ 1 := by
  have hsub : (matchesIn nodes c).Sublist nodes := List.filter_sublist _
  have hpw : (matchesIn nodes c).Pairwise fun a b => nodeCoord a ≠ nodeCoord b :=
    hc.sublist hsub
  cases hmat : matchesIn nodes c with
  | nil => simp
  | cons a t =>
    cases t with
    | nil => simp
    | cons b t2 =>
      exfalso
      rw [hmat] at hpw
      have hab := (List.pairwise_cons.mp hpw).1 b (by simp)
      have ha : a ∈ nodes ∧ nodeCoord a = c :=
        mem_matchesIn.mp (by rw [hmat]; exact List.mem_cons_self a _)
      have hb : b ∈ nodes ∧ nodeCoord b = c :=
        mem_matchesIn.mp
          (by rw [hmat]; exact List.mem_cons_of_mem _ (List.mem_cons_self b _))
      exact hab (by rw [ha.2, hb.2])

/-- Core geometric fact behind the lookback-window optimisation: when
slice `z` is being generated, no node written before the window start
can have a coordinate that slice `z` produces, because nodes written
during slice `w ≤ z - 2` live at heights of slices `w` and `w + 1`,
all strictly below those of slice `z`. -/
theorem matches_take_window_nil (zc : List ℚ) (hmono : zc.Pairwise (· < ·))
    (hlen2 : 2 ≤ zc.length) (z : ℕ) (hz : z < zc.length)
    (st : MeshState) (inv : MeshInv zc st) (hig : st.ignore.length = z)
    (c : ℚ × ℚ × ℚ) (hcz : heightIn zc z c.2.2) :
    matchesIn (st.nodes.take (windowStart st z)) c = [] := by
  rw [matchesIn, List.filter_eq_nil_iff]
  intro n hn
  rw [windowStart] at hn
  by_cases h2 : 2 < z
  · rw [if_pos h2] at hn
    obtain ⟨j, hj, rfl⟩ := List.mem_iff_getElem.mp hn
    have hjlen : j < st.nodes.length := by
      rw [List.length_take] at hj
      omega
    have hjlt : j < st.ignore.getD (z - 2) 0 := by
      rw [List.length_take] at hj
      omega
    have hkidx : z - 2 < st.ignore.length := by omega
    have hlv : lvlOf st.ignore j ≤ z - 2 :=
      lvlOf_le_of_lt_marker _ inv.ig_sorted _ hkidx _ hjlt
    obtain ⟨hwlt, hht⟩ := inv.levels j hjlen
    rw [List.getElem_take]
    intro hb
    simp only [Bool.and_eq_true, beq_iff_eq] at hb
    have hzeq : st.nodes[j].z = c.2.2 := hb.2
    have hget : st.nodes[j] = st.nodes.get ⟨j, hjlen⟩ := rfl
    have hht2 : heightIn zc (lvlOf st.ignore j) c.2.2 := by
      rw [← hzeq, hget]; exact hht
    have := height_inter zc hmono hlen2 (lvlOf st.ignore j) z (by omega) hz
      c.2.2 hht2 hcz
    omega
  · rw [if_neg h2] at hn
    simp at hn

end Cloud2FEM

namespace Cloud2FEM

/-- Appending a node with a globally fresh coordinate (at the current
slice's heights) preserves the mesh invariant. -/
theorem MeshInv_append (zc : List ℚ) (z : ℕ) (hz : z < zc.length)
    (st : MeshState) (inv : MeshInv zc st) (hig : st.ignore.length = z)
    (c : ℚ × ℚ × ℚ) (hcz : heightIn zc z c.2.2)
    (hnotin : ∀ n ∈ st.nodes, nodeCoord n ≠ c) :
    MeshInv zc
      { st with
          nodes := st.nodes ++ [⟨st.nodeID, c.1, c.2.1, c.2.2⟩],
          nodeID := st.nodeID + 1,
          zignore := st.zignore + 1 } := by
  obtain ⟨c1, c2, c3⟩ := c
  have hnewcoord : nodeCoord ⟨st.nodeID, c1, c2, c3⟩ = (c1, c2, c3) := rfl
  constructor
  · simp [inv.nodeID_eq]
  · intro i hi
    simp only [List.length_append, List.length_singleton] at hi
    show (st.nodes ++ [⟨st.nodeID, c1, c2, c3⟩])[i].nid = i + 1
    rcases Nat.lt_or_ge i st.nodes.length with hlt | hge
    · rw [List.getElem_append_left hlt]
      exact inv.ids_getElem i hlt
    · have hieq : i = st.nodes.length := by omega
      rw [List.getElem_append_right (by omega)]
      simp [hieq, inv.nodeID_eq]
  · rw [coordsDistinct, List.pairwise_append]
    refine ⟨inv.coords, by simp, ?_⟩
    intro a ha b hb
    simp only [List.mem_singleton] at hb
    subst hb
    rw [hnewcoord]
    exact hnotin a ha
  · simp [inv.zig]
  · exact inv.ig_sorted
  · intro m hm
    simp only [List.length_append, List.length_singleton]
    exact le_trans (inv.ig_le m hm) (by omega)
  · exact inv.ig_len
  · intro i hi
    simp only [List.length_append, List.length_singleton] at hi
    show lvlOf st.ignore i < zc.length ∧
      heightIn zc (lvlOf st.ignore i)
        (st.nodes ++ [⟨st.nodeID, c1, c2, c3⟩])[i].z
    rcases Nat.lt_or_ge i st.nodes.length with hlt | hge
    · rw [List.getElem_append_left hlt]
      exact inv.levels_getElem i hlt
    · have hieq : i = st.nodes.length := by omega
      have hfull : lvlOf st.ignore i = st.ignore.length :=
        lvlOf_eq_length _ _ fun m hm => le_trans (inv.ig_le m hm) (by omega)
      rw [List.getElem_append_right (by omega)]
      constructor
      · rw [hfull, hig]; exact hz
      · rw [hfull, hig]
        simpa [hieq] using hcz
  · exact inv.el_eq
  · intro row hrow
    obtain ⟨e, idsr, hrow_eq, hlen, hnd, hmem⟩ := inv.rows row hrow
    exact ⟨e, idsr, hrow_eq, hlen, hnd, fun i hi =>
      (hmem i hi).elim fun n hn => ⟨n, List.mem_append_left _ hn.1, hn.2⟩⟩

/-- Behaviour of `addCorner` under the invariant: the state keeps the
invariant, `ignore`, `elID` and the connectivity are untouched, the
node list is only extended with nodes at the corner's coordinate, and
the returned id is the id of a node whose coordinate is the corner. -/
theorem addCorner_spec (zc : List ℚ) (hmono : zc.Pairwise (· < ·))
    (hlen2 : 2 ≤ zc.length) (z : ℕ) (hz : z < zc.length)
    (st : MeshState) (inv : MeshInv zc st) (hig : st.ignore.length = z)
    (c : ℚ × ℚ × ℚ) (hcz : heightIn zc z c.2.2)
    (hfirst : st.elID = 1 → ∀ n ∈ st.nodes, nodeCoord n ≠ c) :
    MeshInv zc (addCorner z st c).1 ∧
    (addCorner z st c).1.ignore = st.ignore ∧
    (addCorner z st c).1.elID = st.elID ∧
    (addCorner z st c).1.elconnect = st.elconnect ∧
    (∃ ext, (addCorner z st c).1.nodes = st.nodes ++ ext ∧
      ∀ n ∈ ext, nodeCoord n = c) ∧
    (∃ n, n ∈ (addCorner z st c).1.nodes ∧ n.nid = (addCorner z st c).2 ∧
      nodeCoord n = c) := by
  have hc_eta : ((c.1, c.2.1, c.2.2) : ℚ × ℚ × ℚ) = c := rfl
  rw [addCorner]
  by_cases hel : st.elID ≠ 1
  · rw [if_pos hel]
    set win := st.nodes.drop (windowStart st z) with hwin
    set mat := matchesIn win c with hmat
    by_cases hone : mat.length = 1
    · rw [if_pos hone]
      refine ⟨inv, rfl, rfl, rfl, ⟨[], by simp, by simp⟩, ?_⟩
      obtain ⟨m, hm⟩ : ∃ m, mat = [m] := List.length_eq_one.mp hone
      have hmmem : m ∈ mat := by rw [hm]; exact List.mem_singleton_self m
      have hminfo := mem_matchesIn.mp (hmat ▸ hmmem)
      refine ⟨m, List.drop_subset _ _ hminfo.1, ?_, hminfo.2⟩
      show m.nid = ((matchesIn win c).headD ⟨0, 0, 0, 0⟩).nid
      rw [← hmat, hm]
      rfl
    · rw [if_neg hone]
      have hnotin : ∀ n ∈ st.nodes, nodeCoord n ≠ c := by
        intro n hn hcoord
        have hmemfull : n ∈ matchesIn st.nodes c := mem_matchesIn.mpr ⟨hn, hcoord⟩
        have hsplit : st.nodes = st.nodes.take (windowStart st z) ++ win := by
          rw [hwin, List.take_append_drop]
        rw [hsplit, matchesIn_append,
          matches_take_window_nil zc hmono hlen2 z hz st inv hig c hcz,
          List.nil_append] at hmemfull
        have hle := matchesIn_length_le_one inv.coords c
        rw [hsplit, matchesIn_append,
          matches_take_window_nil zc hmono hlen2 z hz st inv hig c hcz,
          List.nil_append, ← hmat] at hle
        rw [← hmat] at hmemfull
        have hnil : mat = [] := List.length_eq_zero.mp (by omega)
        rw [hnil] at hmemfull
        exact absurd hmemfull (List.not_mem_nil n)
      refine ⟨MeshInv_append zc z hz st inv hig c hcz hnotin, rfl, rfl, rfl,
        ⟨[⟨st.nodeID, c.1, c.2.1, c.2.2⟩], rfl, ?_⟩, ?_⟩
      · intro n hn
        simp only [List.mem_singleton] at hn
        subst hn
        rw [nodeCoord]
      · refine ⟨⟨st.nodeID, c.1, c.2.1, c.2.2⟩, ?_, rfl, by rw [nodeCoord]⟩
        exact List.mem_append_right _ (List.mem_singleton_self _)
  · rw [if_neg hel]
    push_neg at hel
    have hnotin := hfirst hel
    refine ⟨MeshInv_append zc z hz st inv hig c hcz hnotin, rfl, rfl, rfl,
      ⟨[⟨st.nodeID, c.1, c.2.1, c.2.2⟩], rfl, ?_⟩, ?_⟩
    · intro n hn
      simp only [List.mem_singleton] at hn
      subst hn
      rw [nodeCoord]
    · refine ⟨⟨st.nodeID, c.1, c.2.1, c.2.2⟩, ?_, rfl, by rw [nodeCoord]⟩
      exact List.mem_append_right _ (List.mem_singleton_self _)

end Cloud2FEM

namespace Cloud2FEM

theorem cornerCoord_height (xng yng zc : List ℚ) (z : ℕ) (elem : ℕ × ℕ)
    (node : ℕ) :
    heightIn zc z
      (cornerCoord xng yng (zc.getD z 0) (elhAt zc z) elem node).2.2 := by
  rw [cornerCoord, heightIn]
  split_ifs <;> first
    | exact Or.inl rfl
    | exact Or.inr rfl

theorem cornerCoord_inj (xng yng : List ℚ) (crntz elh : ℚ) (elem : ℕ × ℕ)
    (hgx : xng.getD elem.1 0 ≠ xng.getD (elem.1 + 1) 0)
    (hgy : yng.getD elem.2 0 ≠ yng.getD (elem.2 + 1) 0)
    (he : elh ≠ 0) :
    ∀ j k, j < 8 → k < 8 →
      cornerCoord xng yng crntz elh elem j = cornerCoord xng yng crntz elh elem k →
      j = k := by
  have hzne : crntz ≠ crntz + elh := by
    intro hcontra
    exact he (by linarith [hcontra])
  intro j k hj hk heq
  interval_cases j <;> interval_cases k <;>
    simp +decide only [cornerCoord, Prod.mk.injEq, if_true, if_false] at heq ⊢ <;>
    first
      | rfl
      | (exact absurd heq.1 hgx)
      | (exact absurd heq.1.symm hgx)
      | (exact absurd heq.2.1 hgy)
      | (exact absurd heq.2.1.symm hgy)
      | (exact absurd heq.2.2 hzne)
      | (exact absurd heq.2.2 hzne.symm)

end Cloud2FEM

namespace Cloud2FEM

/-- Invariant of the eight-corner loop: after `m` corners, the state
keeps the mesh invariant with `ignore`, `elID`, connectivity untouched,
all new nodes carry corner coordinates of this element, and the
collected `tempel` ids point at nodes with the matching corner
coordinates. -/
theorem corner_fold_spec (zc xng yng : List ℚ) (hmono : zc.Pairwise (· < ·))
    (hlen2 : 2 ≤ zc.length) (z : ℕ) (hz : z < zc.length) (elem : ℕ × ℕ)
    (hgx : xng.getD elem.1 0 ≠ xng.getD (elem.1 + 1) 0)
    (hgy : yng.getD elem.2 0 ≠ yng.getD (elem.2 + 1) 0)
    (st0 : MeshState) (inv0 : MeshInv zc st0) (hig0 : st0.ignore.length = z)
    (hfirst0 : st0.elID = 1 → st0.nodes = []) :
    ∀ m, m ≤ 8 →
      MeshInv zc ((List.range m).foldl
        (cornerStep xng yng z (zc.getD z 0) (elhAt zc z) elem)
        (st0, ([] : List ℕ))).1 ∧
      ((List.range m).foldl (cornerStep xng yng z (zc.getD z 0) (elhAt zc z) elem)
        (st0, ([] : List ℕ))).1.ignore = st0.ignore ∧
      ((List.range m).foldl (cornerStep xng yng z (zc.getD z 0) (elhAt zc z) elem)
        (st0, ([] : List ℕ))).1.elID = st0.elID ∧
      ((List.range m).foldl (cornerStep xng yng z (zc.getD z 0) (elhAt zc z) elem)
        (st0, ([] : List ℕ))).1.elconnect = st0.elconnect ∧
      (∃ ext, ((List.range m).foldl
          (cornerStep xng yng z (zc.getD z 0) (elhAt zc z) elem)
          (st0, ([] : List ℕ))).1.nodes = st0.nodes ++ ext ∧
        ∀ n ∈ ext, ∃ j, j < m ∧
          nodeCoord n = cornerCoord xng yng (zc.getD z 0) (elhAt zc z) elem j) ∧
      ((List.range m).foldl (cornerStep xng yng z (zc.getD z 0) (elhAt zc z) elem)
        (st0, ([] : List ℕ))).2.length = m ∧
      (∀ j, j < m → ∃ n,
        n ∈ ((List.range m).foldl
          (cornerStep xng yng z (zc.getD z 0) (elhAt zc z) elem)
          (st0, ([] : List ℕ))).1.nodes ∧
        n.nid = ((List.range m).foldl
          (cornerStep xng yng z (zc.getD z 0) (elhAt zc z) elem)
          (st0, ([] : List ℕ))).2.getD j 0 ∧
        nodeCoord n = cornerCoord xng yng (zc.getD z 0) (elhAt zc z) elem j) := by
  have helh : elhAt zc z ≠ 0 := (elhAt_pos zc hmono hlen2 z hz).ne'
  intro m
  induction m with
  | zero =>
    intro _
    exact ⟨inv0, rfl, rfl, rfl, ⟨[], by simp, by simp⟩, rfl, by omega⟩
  | succ m ih =>
    intro hm8
    obtain ⟨inv1, hig1, hel1, hec1, ⟨ext, hext, hextc⟩, hlen1, hids1⟩ :=
      ih (by omega)
    set acc := (List.range m).foldl
      (cornerStep xng yng z (zc.getD z 0) (elhAt zc z) elem)
      (st0, ([] : List ℕ)) with hacc
    have hfold : (List.range (m + 1)).foldl
        (cornerStep xng yng z (zc.getD z 0) (elhAt zc z) elem)
        (st0, ([] : List ℕ)) =
        cornerStep xng yng z (zc.getD z 0) (elhAt zc z) elem acc m := by
      rw [List.range_succ, List.foldl_append, List.foldl_cons, List.foldl_nil]
    have hcz := cornerCoord_height xng yng zc z elem m
    have hfirst1 : acc.1.elID = 1 →
        ∀ n ∈ acc.1.nodes,
          nodeCoord n ≠ cornerCoord xng yng (zc.getD z 0) (elhAt zc z) elem m := by
      intro h1 n hn
      have h0 : st0.nodes = [] := hfirst0 (by rw [← hel1]; exact h1)
      rw [hext, h0, List.nil_append] at hn
      obtain ⟨j, hj, hjc⟩ := hextc n hn
      rw [hjc]
      intro hcontra
      exact absurd (cornerCoord_inj xng yng (zc.getD z 0) (elhAt zc z) elem
        hgx hgy helh j m (by omega) (by omega) hcontra) (by omega)
    obtain ⟨inv2, hig2, hel2, hec2, ⟨ext2, hext2, hextc2⟩, hn2⟩ :=
      addCorner_spec zc hmono hlen2 z hz acc.1 inv1 (by rw [hig1]; exact hig0)
        (cornerCoord xng yng (zc.getD z 0) (elhAt zc z) elem m) hcz hfirst1
    rw [hfold]
    rw [cornerStep]
    refine ⟨inv2, by rw [hig2, hig1], by rw [hel2, hel1], by rw [hec2, hec1],
      ⟨ext ++ ext2, ?_, ?_⟩, ?_, ?_⟩
    · show (addCorner z acc.1 _).1.nodes = st0.nodes ++ (ext ++ ext2)
      rw [hext2, hext, List.append_assoc]
    · intro n hn
      rcases List.mem_append.mp hn with hn | hn
      · obtain ⟨j, hj, hjc⟩ := hextc n hn
        exact ⟨j, by omega, hjc⟩
      · exact ⟨m, by omega, hextc2 n hn⟩
    · show (acc.2 ++ [(addCorner z acc.1 _).2]).length = m + 1
      rw [List.length_append, hlen1]
      rfl
    · intro j hj
      rcases Nat.lt_or_ge j m with hjm | hjm
      · obtain ⟨n, hnmem, hnid, hnc⟩ := hids1 j hjm
        refine ⟨n, ?_, ?_, hnc⟩
        · show n ∈ (addCorner z acc.1 _).1.nodes
          rw [hext2]
          exact List.mem_append_left _ hnmem
        · show n.nid = (acc.2 ++ [(addCorner z acc.1 _).2]).getD j 0
          rw [List.getD_append _ _ _ _ (by omega), hnid]
      · have hjeq : j = m := by omega
        obtain ⟨n, hnmem, hnid, hnc⟩ := hn2
        refine ⟨n, hnmem, ?_, by rw [hjeq]; exact hnc⟩
        show n.nid = (acc.2 ++ [(addCorner z acc.1 _).2]).getD j 0
        rw [hjeq, List.getD_append_right _ _ _ _ (by omega)]
        rw [hlen1]
        simpa using hnid

end Cloud2FEM

namespace Cloud2FEM

/-- Zeta-expanded form of `addElement`. -/
theorem addElement_eq (xng yng : List ℚ) (z : ℕ) (crntz elh : ℚ)
    (st : MeshState) (elem : ℕ × ℕ) :
    addElement xng yng z crntz elh st elem =
      { ((List.range 8).foldl (cornerStep xng yng z crntz elh elem)
          (st, ([] : List ℕ))).1 with
        elconnect := ((List.range 8).foldl (cornerStep xng yng z crntz elh elem)
          (st, ([] : List ℕ))).1.elconnect ++
            [st.elID :: ((List.range 8).foldl
              (cornerStep xng yng z crntz elh elem) (st, ([] : List ℕ))).2],
        elID := ((List.range 8).foldl (cornerStep xng yng z crntz elh elem)
          (st, ([] : List ℕ))).1.elID + 1 } := rfl

/-- Element generation preserves the mesh invariant; the new
connectivity row is well formed and `ignore` is untouched. -/
theorem addElement_spec (zc xng yng : List ℚ) (hmono : zc.Pairwise (· < ·))
    (hlen2 : 2 ≤ zc.length) (z : ℕ) (hz : z < zc.length) (elem : ℕ × ℕ)
    (hgx : xng.getD elem.1 0 ≠ xng.getD (elem.1 + 1) 0)
    (hgy : yng.getD elem.2 0 ≠ yng.getD (elem.2 + 1) 0)
    (st0 : MeshState) (inv0 : MeshInv zc st0) (hig0 : st0.ignore.length = z)
    (hfirst0 : st0.elID = 1 → st0.nodes = []) :
    MeshInv zc (addElement xng yng z (zc.getD z 0) (elhAt zc z) st0 elem) ∧
    (addElement xng yng z (zc.getD z 0) (elhAt zc z) st0 elem).ignore
      = st0.ignore ∧
    ((addElement xng yng z (zc.getD z 0) (elhAt zc z) st0 elem).elID = 1 →
      (addElement xng yng z (zc.getD z 0) (elhAt zc z) st0 elem).nodes = []) := by
  have helh : elhAt zc z ≠ 0 := (elhAt_pos zc hmono hlen2 z hz).ne'
  obtain ⟨inv8, hig8, hel8, hec8, ⟨ext, hext, hextc⟩, hlen8, hids8⟩ :=
    corner_fold_spec zc xng yng hmono hlen2 z hz elem hgx hgy st0 inv0 hig0
      hfirst0 8 le_rfl
  rw [addElement_eq]
  generalize hgen : (List.range 8).foldl
    (cornerStep xng yng z (zc.getD z 0) (elhAt zc z) elem)
    (st0, ([] : List ℕ)) = res at inv8 hig8 hel8 hec8 hext hlen8 hids8 ⊢
  refine ⟨⟨inv8.nodeID_eq, inv8.ids, inv8.coords, inv8.zig, inv8.ig_sorted,
    inv8.ig_le, inv8.ig_len, inv8.levels, ?_, ?_⟩, hig8, ?_⟩
  · show res.1.elID + 1 = (res.1.elconnect ++ [st0.elID :: res.2]).length + 1
    rw [List.length_append, inv8.el_eq]
    rfl
  · intro row hrow
    show elemRowOk res.1.nodes row
    rcases List.mem_append.mp hrow with hrow | hrow
    · exact inv8.rows row hrow
    · simp only [List.mem_singleton] at hrow
      subst hrow
      refine ⟨st0.elID, res.2, rfl, hlen8, ?_, ?_⟩
      · show List.Pairwise (fun a b => a ≠ b) res.2
        rw [List.pairwise_iff_getElem]
        intro a b ha hb hab heq
        rw [hlen8] at ha hb
        obtain ⟨na, hna, hnida, hnca⟩ := hids8 a ha
        obtain ⟨nb, hnb, hnidb, hncb⟩ := hids8 b hb
        have hga : res.2.getD a 0 = res.2[a] :=
          List.getD_eq_getElem _ _ (by rw [hlen8]; exact ha)
        have hgb : res.2.getD b 0 = res.2[b] :=
          List.getD_eq_getElem _ _ (by rw [hlen8]; exact hb)
        have hnid : na.nid = nb.nid := by
          rw [hnida, hnidb, hga, hgb, heq]
        have hne : na = nb := inv8.nid_inj hna hnb hnid
        have : a = b := by
          apply cornerCoord_inj xng yng (zc.getD z 0) (elhAt zc z) elem
            hgx hgy helh a b ha hb
          rw [← hnca, ← hncb, hne]
        omega
      · intro i hi
        obtain ⟨k, hk, hik⟩ := List.mem_iff_getElem.mp hi
        have hk8 : k < 8 := by rw [← hlen8]; exact hk
        obtain ⟨n, hn, hnid, _⟩ := hids8 k hk8
        refine ⟨n, hn, ?_⟩
        rw [hnid, List.getD_eq_getElem _ _ hk, hik]
  · intro h1
    exfalso
    have h2 : res.1.elID + 1 = 1 := h1
    have h3 : res.1.elID = st0.elconnect.length + 1 := by
      rw [hel8, inv0.el_eq]
    omega

end Cloud2FEM

namespace Cloud2FEM

/-- The element loop of one slice preserves the invariant and leaves
`ignore` untouched. -/
theorem cells_fold_spec (zc xng yng : List ℚ) (hmono : zc.Pairwise (· < ·))
    (hlen2 : 2 ≤ zc.length) (z : ℕ) (hz : z < zc.length) :
    ∀ (cells : List (ℕ × ℕ)),
      (∀ e ∈ cells, xng.getD e.1 0 ≠ xng.getD (e.1 + 1) 0 ∧
        yng.getD e.2 0 ≠ yng.getD (e.2 + 1) 0) →
      ∀ (st0 : MeshState), MeshInv zc st0 → st0.ignore.length = z →
      (st0.elID = 1 → st0.nodes = []) →
      MeshInv zc (cells.foldl
        (addElement xng yng z (zc.getD z 0) (elhAt zc z)) st0) ∧
      (cells.foldl (addElement xng yng z (zc.getD z 0) (elhAt zc z))
        st0).ignore = st0.ignore ∧
      ((cells.foldl (addElement xng yng z (zc.getD z 0) (elhAt zc z))
        st0).elID = 1 →
        (cells.foldl (addElement xng yng z (zc.getD z 0) (elhAt zc z))
          st0).nodes = []) := by
  intro cells
  induction cells with
  | nil =>
    intro _ st0 inv0 _ hfirst0
    exact ⟨inv0, rfl, hfirst0⟩
  | cons e rest ih =>
    intro hcells st0 inv0 hig0 hfirst0
    obtain ⟨hgx, hgy⟩ := hcells e (List.mem_cons_self e rest)
    obtain ⟨inv1, hig1, hfirst1⟩ :=
      addElement_spec zc xng yng hmono hlen2 z hz e hgx hgy st0 inv0 hig0 hfirst0
    rw [List.foldl_cons]
    obtain ⟨inv2, hig2, hfirst2⟩ := ih
      (fun c hc => hcells c (List.mem_cons_of_mem e hc))
      (addElement xng yng z (zc.getD z 0) (elhAt zc z) st0 e) inv1
      (by rw [hig1]; exact hig0) hfirst1
    exact ⟨inv2, by rw [hig2, hig1], hfirst2⟩

/-- One level of the mesher loop: the invariant is preserved and one
marker is appended to `ignore`. -/
theorem processLevelM_spec (zc xng yng : List ℚ) (hmono : zc.Pairwise (· < ·))
    (hlen2 : 2 ≤ zc.length) (z : ℕ) (hz : z < zc.length)
    (cells : List (ℕ × ℕ))
    (hcells : ∀ e ∈ cells, xng.getD e.1 0 ≠ xng.getD (e.1 + 1) 0 ∧
      yng.getD e.2 0 ≠ yng.getD (e.2 + 1) 0)
    (st0 : MeshState) (inv0 : MeshInv zc st0) (hig0 : st0.ignore.length = z)
    (hfirst0 : st0.elID = 1 → st0.nodes = []) :
    MeshInv zc (processLevelM xng yng zc z cells st0) ∧
    (processLevelM xng yng zc z cells st0).ignore.length = z + 1 ∧
    ((processLevelM xng yng zc z cells st0).elID = 1 →
      (processLevelM xng yng zc z cells st0).nodes = []) := by
  obtain ⟨inv1, hig1, hfirst1⟩ :=
    cells_fold_spec zc xng yng hmono hlen2 z hz cells hcells st0 inv0 hig0
      hfirst0
  rw [processLevelM]
  set st1 := cells.foldl (addElement xng yng z (zc.getD z 0) (elhAt zc z)) st0
    with hst1
  refine ⟨⟨inv1.nodeID_eq, inv1.ids, inv1.coords, inv1.zig, ?_, ?_, ?_, ?_,
    inv1.el_eq, ?_⟩, ?_, hfirst1⟩
  · show (st1.ignore ++ [st1.zignore]).Pairwise (· ≤ ·)
    rw [List.pairwise_append]
    refine ⟨inv1.ig_sorted, by simp, ?_⟩
    intro a ha b hb
    simp only [List.mem_singleton] at hb
    subst hb
    rw [inv1.zig]
    exact inv1.ig_le a ha
  · intro m hm
    show m ≤ st1.nodes.length
    rcases List.mem_append.mp hm with hm | hm
    · exact inv1.ig_le m hm
    · simp only [List.mem_singleton] at hm
      subst hm
      rw [inv1.zig]
  · show (st1.ignore ++ [st1.zignore]).length ≤ zc.length
    rw [List.length_append, hig1, hig0, List.length_singleton]
    omega
  · intro i hi
    show lvlOf (st1.ignore ++ [st1.zignore]) i < zc.length ∧
      heightIn zc (lvlOf (st1.ignore ++ [st1.zignore]) i) (st1.nodes.get ⟨i, hi⟩).z
    rw [lvlOf_append_lt st1.ignore st1.zignore i (by rw [inv1.zig]; exact hi)]
    exact inv1.levels i hi
  · intro row hrow
    exact inv1.rows row hrow
  · show (st1.ignore ++ [st1.zignore]).length = z + 1
    rw [List.length_append, hig1, hig0]
    rfl

end Cloud2FEM

namespace Cloud2FEM

theorem arange_consec (a b s : ℚ) (g : List ℚ) (h : arange a b s = some g) :
    s ≠ 0 ∧ ∀ i, i + 1 < g.length →
      g.getD (i + 1) 0 - g.getD i 0 = s := by
  by_cases hs : s = 0
  · rw [arange, if_pos hs] at h
    simp at h
  · rw [arange_eq a b s hs] at h
    obtain rfl := (Option.some.injEq _ _).mp h
    refine ⟨hs, ?_⟩
    intro i hi
    rw [List.length_map, List.length_range] at hi
    rw [getD_range_map _ _ _ (by omega), getD_range_map _ _ _ (by omega)]
    push_cast
    ring

theorem levelCells_bounds (mp : ℚ → ℚ → Bool) (xel yel : List ℚ) :
    ∀ cell ∈ levelCells mp xel yel, cell.1 < xel.length ∧ cell.2 < yel.length := by
  intro cell hcell
  rw [levelCells] at hcell
  simp only [List.mem_flatMap, List.mem_filterMap, List.mem_range] at hcell
  obtain ⟨x, hx, y, hy, hsome⟩ := hcell
  by_cases hmp : mp (xel.getD x 0) (yel.getD y 0)
  · rw [if_pos hmp] at hsome
    obtain rfl := (Option.some.injEq _ _).mp hsome
    exact ⟨hx, hy⟩
  · rw [if_neg hmp] at hsome
    exact absurd hsome (Option.noConfusion)

theorem rasterize_bounds (polygs : List (ℚ × (ℚ → ℚ → Bool)))
    (xel yel : List ℚ) :
    ∀ zs el, rasterize polygs xel yel zs = some el →
      ∀ e ∈ el, ∀ cell ∈ e.2, cell.1 < xel.length ∧ cell.2 < yel.length := by
  intro zs
  induction zs with
  | nil =>
    intro el h e he
    rw [rasterize] at h
    obtain rfl := (Option.some.injEq _ _).mp h
    exact absurd he (List.not_mem_nil e)
  | cons z rest ih =>
    intro el h e he
    rw [rasterize] at h
    cases hlk : lookupD polygs z with
    | none => rw [hlk] at h; exact absurd h (Option.noConfusion)
    | some mp =>
      rw [hlk] at h
      dsimp only at h
      by_cases hemp : (levelCells mp xel yel).isEmpty
      · rw [if_pos hemp] at h
        exact absurd h (Option.noConfusion)
      · rw [if_neg hemp] at h
        cases hrest : rasterize polygs xel yel rest with
        | none => rw [hrest] at h; exact absurd h (Option.noConfusion)
        | some tl =>
          rw [hrest] at h
          obtain rfl := (Option.some.injEq _ _).mp h
          rcases List.mem_cons.mp he with rfl | he2
          · exact fun cell hcell => levelCells_bounds mp xel yel cell hcell
          · exact ih tl hrest e he2

theorem lookupD_mem {α : Type _} (d : List (ℚ × α)) (k : ℚ) (v : α)
    (h : lookupD d k = some v) : ∃ e ∈ d, e.2 = v := by
  rw [lookupD] at h
  cases hf : d.find? (fun e => e.1 == k) with
  | none => rw [hf] at h; exact absurd h (Option.noConfusion)
  | some e =>
    rw [hf] at h
    simp only [Option.map_some', Option.some.injEq] at h
    exact ⟨e, List.mem_of_find?_eq_some hf, h⟩

/-- The level loop of `make_mesh` keeps the invariant, processing
levels `0, 1, …, k-1` in order. -/
theorem mesh_levels_fold_spec (zc xng yng : List ℚ)
    (hmono : zc.Pairwise (· < ·)) (hlen2 : 2 ≤ zc.length)
    (hgx : ∀ i, i + 1 < xng.length → xng.getD i 0 ≠ xng.getD (i + 1) 0)
    (hgy : ∀ i, i + 1 < yng.length → yng.getD i 0 ≠ yng.getD (i + 1) 0)
    (cellsAt : ℕ → List (ℕ × ℕ))
    (hbounds : ∀ z, ∀ cell ∈ cellsAt z,
      cell.1 + 1 < xng.length ∧ cell.2 + 1 < yng.length) :
    ∀ k, k ≤ zc.length →
      MeshInv zc ((List.range k).foldl
        (fun st z => processLevelM xng yng zc z (cellsAt z) st)
        ⟨1, 1, [], [], [], 0⟩) ∧
      ((List.range k).foldl
        (fun st z => processLevelM xng yng zc z (cellsAt z) st)
        ⟨1, 1, [], [], [], 0⟩).ignore.length = k ∧
      (((List.range k).foldl
        (fun st z => processLevelM xng yng zc z (cellsAt z) st)
        ⟨1, 1, [], [], [], 0⟩).elID = 1 →
        ((List.range k).foldl
          (fun st z => processLevelM xng yng zc z (cellsAt z) st)
          ⟨1, 1, [], [], [], 0⟩).nodes = []) := by
  intro k
  induction k with
  | zero =>
    intro _
    refine ⟨⟨rfl, ?_, ?_, rfl, ?_, ?_, ?_, ?_, rfl, ?_⟩, rfl, fun _ => rfl⟩
    · intro i hi; exact absurd hi (by simp)
    · exact List.Pairwise.nil
    · exact List.Pairwise.nil
    · intro m hm; exact absurd hm (List.not_mem_nil m)
    · simp
    · intro i hi; exact absurd hi (by simp)
    · intro row hrow; exact absurd hrow (List.not_mem_nil row)
  | succ k ih =>
    intro hk
    obtain ⟨inv1, hig1, hfirst1⟩ := ih (by omega)
    rw [List.range_succ, List.foldl_append, List.foldl_cons, List.foldl_nil]
    have hcells : ∀ e ∈ cellsAt k, xng.getD e.1 0 ≠ xng.getD (e.1 + 1) 0 ∧
        yng.getD e.2 0 ≠ yng.getD (e.2 + 1) 0 := by
      intro e he
      obtain ⟨hbx, hby⟩ := hbounds k e he
      exact ⟨hgx e.1 hbx, hgy e.2 hby⟩
    obtain ⟨inv2, hig2, hfirst2⟩ := processLevelM_spec zc xng yng hmono hlen2 k
      (by omega) (cellsAt k) hcells _ inv1 hig1 hfirst1
    exact ⟨inv2, hig2, hfirst2⟩

end Cloud2FEM

namespace Cloud2FEM

theorem map_nid_eq_range' (nl : List MeshNode)
    (h : ∀ i (hi : i < nl.length), (nl.get ⟨i, hi⟩).nid = i + 1) :
    nl.map MeshNode.nid = List.range' 1 nl.length := by
  apply List.ext_getElem
  · simp
  · intro i h1 h2
    rw [List.getElem_map, List.getElem_range']
    have hh := h i (by simpa using h1)
    rw [List.get_eq_getElem] at hh
    rw [hh]
    omega

/-- C1, amended: for every run of the voxel mesher on a strictly
increasing level set with at least two levels, the produced node table
contains no two rows with identical (x, y, z), node ids form the dense
sequence 1, 2, … in order, and every connectivity row references 8
pairwise distinct node ids, each of which exists in the node table.
(The two-level requirement is forced by the single-level counterexample:
there the element height degenerates to 0 via python's `zcoords[-1]`
indexing and the first element duplicates its own corners.) -/
theorem mesh_node_table_invariants
    (xeldim yeldim xmin ymin xmax ymax : ℚ) (zcoords : List ℚ)
    (polygs : List (ℚ × (ℚ → ℚ → Bool)))
    (hmono : zcoords.Pairwise (· < ·)) (hlen2 : 2 ≤ zcoords.length)
    (el : List (ℚ × List (ℕ × ℕ))) (nl : List MeshNode) (ec : List (List ℕ))
    (hm : make_mesh xeldim yeldim xmin ymin xmax ymax zcoords polygs =
      some (el, nl, ec)) :
    coordsDistinct nl ∧ nl.map MeshNode.nid = List.range' 1 nl.length ∧
    ∀ row ∈ ec, elemRowOk nl row := by
  rw [make_mesh] at hm
  cases hax : arange (xmin - xeldim) (xmax + 2 * xeldim) xeldim with
  | none => rw [hax] at hm; exact absurd hm (Option.noConfusion)
  | some xng =>
    rw [hax] at hm
    cases hay : arange (ymin - yeldim) (ymax + 2 * yeldim) yeldim with
    | none => rw [hay] at hm; exact absurd hm (Option.noConfusion)
    | some yng =>
      rw [hay] at hm
      dsimp only at hm
      cases hras : rasterize polygs (xng.dropLast.map (· + xeldim / 2))
          (yng.dropLast.map (· + yeldim / 2)) zcoords with
      | none => rw [hras] at hm; exact absurd hm (Option.noConfusion)
      | some elemlist =>
        rw [hras] at hm
        dsimp only at hm
        obtain ⟨hxne, hxdiff⟩ := arange_consec _ _ _ xng hax
        obtain ⟨hyne, hydiff⟩ := arange_consec _ _ _ yng hay
        have hgx : ∀ i, i + 1 < xng.length →
            xng.getD i 0 ≠ xng.getD (i + 1) 0 := by
          intro i hi heq
          have hd := hxdiff i hi
          rw [← heq] at hd
          simp at hd
          exact hxne hd.symm
        have hgy : ∀ i, i + 1 < yng.length →
            yng.getD i 0 ≠ yng.getD (i + 1) 0 := by
          intro i hi heq
          have hd := hydiff i hi
          rw [← heq] at hd
          simp at hd
          exact hyne hd.symm
        have hbounds : ∀ z : ℕ,
            ∀ cell ∈ (lookupD elemlist (zcoords.getD z 0)).getD [],
              cell.1 + 1 < xng.length ∧ cell.2 + 1 < yng.length := by
          intro z cell hcell
          cases hlk : lookupD elemlist (zcoords.getD z 0) with
          | none =>
            rw [hlk] at hcell
            exact absurd hcell (List.not_mem_nil cell)
          | some cs =>
            rw [hlk] at hcell
            simp only [Option.getD_some] at hcell
            obtain ⟨e, hemem, rfl⟩ := lookupD_mem elemlist _ cs hlk
            obtain ⟨hb1, hb2⟩ := rasterize_bounds polygs _ _ zcoords elemlist
              hras e hemem cell hcell
            rw [List.length_map, List.length_dropLast] at hb1 hb2
            omega
        obtain ⟨invF, higF, _⟩ := mesh_levels_fold_spec zcoords xng yng hmono
          hlen2 hgx hgy
          (fun z => (lookupD elemlist (zcoords.getD z 0)).getD []) hbounds
          zcoords.length le_rfl
        set stF := (List.range zcoords.length).foldl
          (fun st z => processLevelM xng yng zcoords z
            ((lookupD elemlist (zcoords.getD z 0)).getD []) st)
          (⟨1, 1, [], [], [], 0⟩ : MeshState) with hstF
        have invF2 : MeshInv zcoords stF := invF
        by_cases hne : stF.nodes.isEmpty
        · rw [if_pos hne] at hm
          exact absurd hm (Option.noConfusion)
        · rw [if_neg hne] at hm
          have hm2 : (elemlist, stF.nodes, stF.elconnect) = (el, nl, ec) :=
            (Option.some.injEq _ _).mp hm
          have hn2 : stF.nodes = nl := congrArg (fun t => t.2.1) hm2
          have hn3 : stF.elconnect = ec := congrArg (fun t => t.2.2) hm2
          subst hn2 hn3
          exact ⟨invF2.coords, map_nid_eq_range' _ invF2.ids, invF2.rows⟩

end Cloud2FEM

namespace Cloud2FEM

/-- C1, counterexample: a run of the mesher on a single level (a level
set the fixed-count rule happily produces with count 1) yields a node
table with duplicate coordinates: `zcoords[z-1]` is python's
`zcoords[-1]`, the element height degenerates to 0, and the first
element's four top corners coincide with its bottom corners, while the
`elID == 1` branch performs no deduplication at all. -/
theorem mesh_duplicate_nodes_single_level :
    make_mesh 1 1 0 0 0 0 [0] cexPolygs = some cexMesh ∧
    ¬ coordsDistinct cexMesh.2.1 := by
  constructor
  · with_unfolding_all rfl
  · intro h
    have h04 := (List.pairwise_iff_getElem.mp h) 0 4
      (by with_unfolding_all decide) (by with_unfolding_all decide)
      (by omega)
    exact h04 (by with_unfolding_all rfl)

theorem mesh_node_table_invariants_witness :
    ([(0 : ℚ), 1].Pairwise (· < ·) ∧ 2 ≤ [(0 : ℚ), 1].length) ∧
    coordsDistinct witMesh.2.1 ∧
    witMesh.2.1.map MeshNode.nid = List.range' 1 witMesh.2.1.length ∧
    (∀ row ∈ witMesh.2.2, elemRowOk witMesh.2.1 row) :=
  ⟨⟨by norm_num [List.pairwise_cons], by norm_num⟩,
   mesh_node_table_invariants 1 1 0 0 0 0 [0, 1] witPolygs
     (by norm_num [List.pairwise_cons]) (by norm_num)
     witMesh.1 witMesh.2.1 witMesh.2.2 (by with_unfolding_all rfl)⟩

/-- Helper: a level in `zcoords` whose `polygs` entry is absent or
rasterizes to no cells makes the whole rasterization fail. -/
theorem rasterize_none_of_bad_level (polygs : List (ℚ × (ℚ → ℚ → Bool)))
    (xel yel : List ℚ) :
    ∀ (zs : List ℚ) (z : ℚ), z ∈ zs →
      (∀ mp, lookupD polygs z = some mp → levelCells mp xel yel = []) →
      rasterize polygs xel yel zs = none := by
  intro zs
  induction zs with
  | nil => intro z hz; exact absurd hz (List.not_mem_nil z)
  | cons w rest ih =>
    intro z hz hbad
    rw [rasterize]
    rcases List.mem_cons.mp hz with rfl | hz2
    · cases hlk : lookupD polygs z with
      | none => rfl
      | some mp =>
        dsimp only
        have hcells : levelCells mp xel yel = [] := hbad mp hlk
        rw [hcells]
        rfl
    · cases hlk : lookupD polygs w with
      | none => rfl
      | some mp =>
        dsimp only
        by_cases hemp : (levelCells mp xel yel).isEmpty
        · rw [if_pos hemp]
        · rw [if_neg hemp, ih z hz2 hbad]

/-- C2, amended: a level key absent from `polygs`, or a level whose
MultiPolygon contains no element-centre point, makes `make_mesh` raise
`KeyError` (modelled by `none`): such levels are not skipped, and when
every level is empty the mesher fails instead of returning an empty
mesh. -/
theorem mesh_fails_on_empty_level
    (xeldim yeldim xmin ymin xmax ymax : ℚ) (zcoords : List ℚ)
    (polygs : List (ℚ × (ℚ → ℚ → Bool))) (xng yng : List ℚ)
    (hax : arange (xmin - xeldim) (xmax + 2 * xeldim) xeldim = some xng)
    (hay : arange (ymin - yeldim) (ymax + 2 * yeldim) yeldim = some yng)
    (z : ℚ) (hz : z ∈ zcoords)
    (hempty : ∀ mp, lookupD polygs z = some mp →
      levelCells mp (xng.dropLast.map (· + xeldim / 2))
        (yng.dropLast.map (· + yeldim / 2)) = []) :
    make_mesh xeldim yeldim xmin ymin xmax ymax zcoords polygs = none := by
  rw [make_mesh, hax, hay]
  dsimp only
  rw [rasterize_none_of_bad_level polygs _ _ zcoords z hz hempty]

/-- C2, counterexample: on a level whose MultiPolygon contains no
element centre, the mesher raises (`KeyError` at
`elemlist[z] = np.array(elemlist[z])`, Polygons2FEM.py line 95) rather
than skipping the level or returning an empty mesh. -/
theorem mesh_keyerror_on_empty_multipolygon :
    make_mesh 1 1 0 0 0 0 [0] [((0 : ℚ), fun _ _ => false)] = none := by
  with_unfolding_all rfl

theorem mesh_fails_on_empty_level_witness :
    ((1 : ℚ) ∈ [(0 : ℚ), 1]) ∧
    make_mesh 1 1 0 0 0 0 [0, 1] [((0 : ℚ), fun _ _ => true)] = none :=
  ⟨by norm_num,
   mesh_fails_on_empty_level 1 1 0 0 0 0 [0, 1]
     [((0 : ℚ), fun _ _ => true)] [-1, 0, 1] [-1, 0, 1]
     (by with_unfolding_all rfl) (by with_unfolding_all rfl) 1
     (by norm_num)
     (by
       intro mp hmp
       have hnone : lookupD [((0 : ℚ), fun _ _ => true)] 1 =
           (none : Option (ℚ → ℚ → Bool)) := by
         with_unfolding_all rfl
       rw [hnone] at hmp
       exact absurd hmp (Option.noConfusion))⟩

/-- C5: for every slice, the four bottom corners of each element lie
at the slice's elevation and the four top corners at elevation plus
element height; that height is the gap to the next level for every
slice but the last, whose top face uses the gap to the previous
level. -/
theorem element_height_rule (xng yng zc : List ℚ) (z : ℕ) (elem : ℕ × ℕ) :
    (∀ node, node < 4 →
      (cornerCoord xng yng (zc.getD z 0) (elhAt zc z) elem node).2.2 =
        zc.getD z 0) ∧
    (∀ node, 4 ≤ node → node < 8 →
      (cornerCoord xng yng (zc.getD z 0) (elhAt zc z) elem node).2.2 =
        zc.getD z 0 + elhAt zc z) ∧
    (z + 1 < zc.length →
      elhAt zc z = zc.getD (z + 1) 0 - zc.getD z 0 ∧
      zc.getD z 0 + elhAt zc z = zc.getD (z + 1) 0) ∧
    (z + 1 = zc.length → 1 ≤ z →
      elhAt zc z = zc.getD z 0 - zc.getD (z - 1) 0) := by
  refine ⟨?_, ?_, ?_, ?_⟩
  · intro node hnode
    interval_cases node <;> rfl
  · intro node h4 h8
    interval_cases node <;> rfl
  · intro h
    refine ⟨elhAt_of_not_last zc z h, ?_⟩
    rw [elhAt_of_not_last zc z h]
    ring
  · exact elhAt_last zc z

theorem element_height_rule_witness :
    ((cornerCoord [0, 1] [0, 1] ([(0 : ℚ), 1, 3].getD 1 0)
        (elhAt [(0 : ℚ), 1, 3] 1) (0, 0) 0).2.2 =
      [(0 : ℚ), 1, 3].getD 1 0) ∧
    ((cornerCoord [0, 1] [0, 1] ([(0 : ℚ), 1, 3].getD 1 0)
        (elhAt [(0 : ℚ), 1, 3] 1) (0, 0) 4).2.2 =
      [(0 : ℚ), 1, 3].getD 1 0 + elhAt [(0 : ℚ), 1, 3] 1) ∧
    (elhAt [(0 : ℚ), 1, 3] 1 =
      [(0 : ℚ), 1, 3].getD 2 0 - [(0 : ℚ), 1, 3].getD 1 0) ∧
    (elhAt [(0 : ℚ), 1, 3] 2 =
      [(0 : ℚ), 1, 3].getD 2 0 - [(0 : ℚ), 1, 3].getD 1 0) :=
  ⟨(element_height_rule [0, 1] [0, 1] [(0 : ℚ), 1, 3] 1 (0, 0)).1 0
      (by omega),
   (element_height_rule [0, 1] [0, 1] [(0 : ℚ), 1, 3] 1 (0, 0)).2.1 4
      (by omega) (by omega),
   ((element_height_rule [0, 1] [0, 1] [(0 : ℚ), 1, 3] 1 (0, 0)).2.2.1
      (by norm_num)).1,
   (element_height_rule [0, 1] [0, 1] [(0 : ℚ), 1, 3] 2 (0, 0)).2.2.2
      (by norm_num) (by omega)⟩

end Cloud2FEM

namespace Cloud2FEM

/-- C10: in the deduplication path (`elID != 1`), a previously emitted
node id is reused exactly when the lookback-window lookup finds one
single coordinate match (`len(nexists) == 1`); zero matches or two or
more matches allocate a fresh node id instead — so a coordinate that
is already duplicated inside the window gets duplicated once more
rather than reused. -/
theorem dedup_reuses_only_single_match (z : ℕ) (st : MeshState)
    (c : ℚ × ℚ × ℚ) (hel : st.elID ≠ 1) :
    ((matchesIn (st.nodes.drop (windowStart st z)) c).length = 1 →
      addCorner z st c =
        (st, ((matchesIn (st.nodes.drop (windowStart st z)) c).headD
          ⟨0, 0, 0, 0⟩).nid)) ∧
    ((matchesIn (st.nodes.drop (windowStart st z)) c).length ≠ 1 →
      addCorner z st c =
        ({ st with
            nodes := st.nodes ++ [⟨st.nodeID, c.1, c.2.1, c.2.2⟩],
            nodeID := st.nodeID + 1,
            zignore := st.zignore + 1 }, st.nodeID)) ∧
    (2 ≤ (matchesIn (st.nodes.drop (windowStart st z)) c).length →
      (matchesIn ((addCorner z st c).1.nodes.drop
          (windowStart (addCorner z st c).1 z)) c).length =
        (matchesIn (st.nodes.drop (windowStart st z)) c).length + 1) := by
  refine ⟨?_, ?_, ?_⟩
  · intro h1
    rw [addCorner, if_pos hel, if_pos h1]
  · intro h1
    rw [addCorner, if_pos hel, if_neg h1]
  · intro h2
    have h1 : (matchesIn (st.nodes.drop (windowStart st z)) c).length ≠ 1 := by
      omega
    rw [addCorner, if_pos hel, if_neg h1]
    have hwsle : windowStart st z ≤ st.nodes.length := by
      by_contra hcon
      push_neg at hcon
      have hnil : st.nodes.drop (windowStart st z) = [] :=
        List.drop_eq_nil_of_le (by omega)
      rw [hnil] at h2
      rw [matchesIn] at h2
      simp at h2
    show (matchesIn ((st.nodes ++
        [(⟨st.nodeID, c.1, c.2.1, c.2.2⟩ : MeshNode)]).drop
        (windowStart st z)) c).length =
      (matchesIn (st.nodes.drop (windowStart st z)) c).length + 1
    rw [List.drop_append_of_le_length hwsle, matchesIn_append]
    have hnew : matchesIn [⟨st.nodeID, c.1, c.2.1, c.2.2⟩] c =
        [⟨st.nodeID, c.1, c.2.1, c.2.2⟩] := by
      rw [matchesIn]
      simp
    rw [hnew, List.length_append]
    rfl

theorem dedup_reuses_only_single_match_witness :
    (dupSt.elID ≠ 1) ∧
    2 ≤ (matchesIn (dupSt.nodes.drop (windowStart dupSt 0)) (0, 0, 0)).length ∧
    (matchesIn ((addCorner 0 dupSt (0, 0, 0)).1.nodes.drop
        (windowStart (addCorner 0 dupSt (0, 0, 0)).1 0)) (0, 0, 0)).length =
      (matchesIn (dupSt.nodes.drop (windowStart dupSt 0)) (0, 0, 0)).length + 1 :=
  ⟨by norm_num [dupSt], by with_unfolding_all decide,
   (dedup_reuses_only_single_match 0 dupSt (0, 0, 0)
      (by norm_num [dupSt])).2.2 (by with_unfolding_all decide)⟩

end Cloud2FEM
